import Mathlib

set_option maxHeartbeats 1000000
set_option maxRecDepth 8000

/-!
Shallow embedding of the ErrorLogCleaner repository's deduplication code.

Strings are modelled as `List Char` (`Str`).  JavaScript's `split('\n')`,
`trim`, template formatting and `Map` (insertion-ordered, keyed by string
equality) are embedded directly.  The regular-expression replacements used by
the normalizers are embedded as explicit left-to-right scanners that mirror
the exact semantics of the JS patterns involved (all of which are
backtracking-free for the character classes they use, so a committed greedy
scan is exact).  JavaScript `\s` is modelled by its ASCII part, which covers
every character the sources and spec scenarios use.
-/

abbrev Str := List Char

def s2l (s : String) : Str := s.data

def nlc : Char := '\n'

def isSpaceC (c : Char) : Bool :=
  c == ' ' || c == '\t' || c == '\n' || c == '\r' || c == Char.ofNat 11 || c == Char.ofNat 12

def isDigitC (c : Char) : Bool :=
  decide (48 ≤ c.toNat) && decide (c.toNat ≤ 57)

def isWordC (c : Char) : Bool :=
  isDigitC c || (decide (65 ≤ c.toNat) && decide (c.toNat ≤ 90)) ||
    (decide (97 ≤ c.toNat) && decide (c.toNat ≤ 122)) || c == '_'

def isHexC (c : Char) : Bool :=
  isDigitC c || (decide (65 ≤ c.toNat) && decide (c.toNat ≤ 70)) ||
    (decide (97 ≤ c.toNat) && decide (c.toNat ≤ 102))

def isWordOrSpaceC (c : Char) : Bool := isWordC c || isSpaceC c

/-- JavaScript `log.split('\n')`: always returns at least one (possibly empty) line. -/
def splitOnNl : Str → List Str
  | [] => [[]]
  | c :: cs =>
    if c = nlc then [] :: splitOnNl cs
    else
      match splitOnNl cs with
      | t :: ts => (c :: t) :: ts
      | [] => [[c]]

/-- JavaScript `Array.prototype.join(sep)`. -/
def joinSep (sep : List α) : List (List α) → List α
  | [] => []
  | [s] => s
  | s :: s' :: rest => s ++ sep ++ joinSep sep (s' :: rest)

/-- JavaScript `String.prototype.trim()` (ASCII whitespace). -/
def trimC (l : Str) : Str :=
  ((l.dropWhile isSpaceC).reverse.dropWhile isSpaceC).reverse

def digitChar (n : Nat) : Char := Char.ofNat (48 + n)

/-- Decimal rendering of a Nat, as JS template interpolation of a number. -/
def natDigitsAux : Nat → Nat → Str
  | 0, _ => []
  | f + 1, n => if n < 10 then [digitChar n] else natDigitsAux f (n / 10) ++ [digitChar (n % 10)]

def natToStr (n : Nat) : Str := natDigitsAux (n + 1) n

/-- The JS template literal suffix `` ` [x${count}]` ``. -/
def countSuffix (n : Nat) : Str := [' ', '[', 'x'] ++ natToStr n ++ [']']

/-! ### Committed scanners for the JS regex replacements -/

/-- Consume exactly `n` characters satisfying `isDigitC` (regex `\d{n}`). -/
def takeDigits : Nat → Str → Option Str
  | 0, l => some l
  | _ + 1, [] => none
  | n + 1, c :: l => if isDigitC c then takeDigits n l else none

/-- Consume exactly the literal character `c`. -/
def lit (c : Char) : Str → Option Str
  | [] => none
  | x :: r => if x = c then some r else none

/-- Consume a maximal non-empty run of characters satisfying `p` (regex `p+`, greedy). -/
def dropWhile1 (p : Char → Bool) : Str → Option Str
  | [] => none
  | x :: r => if p x then some (r.dropWhile p) else none

/-- Consume exactly `n` word characters (regex `\w{n}`). -/
def takeWord : Nat → Str → Option Str
  | 0, l => some l
  | _ + 1, [] => none
  | n + 1, c :: l => if isWordC c then takeWord n l else none

/-- The optional fractional-seconds suffix `(?:\.\d+)?` (greedy, matches empty on failure). -/
def fracSkip (l : Str) : Str :=
  match l with
  | c :: r =>
    if c = '.' then
      match dropWhile1 isDigitC r with
      | some r2 => r2
      | none => l
    else l
  | [] => l

def sepST : Str → Option Str
  | [] => none
  | c :: r => if c = ' ' || c = 'T' then some r else none

/-- Regex `\d{4}-\d{2}-\d{2}[ T]\d{2}:\d{2}:\d{2}(?:\.\d+)?` at the current position. -/
def matchISO (_ : Bool) (l : Str) : Option Str :=
  (takeDigits 4 l).bind fun r1 =>
  (lit '-' r1).bind fun r2 =>
  (takeDigits 2 r2).bind fun r3 =>
  (lit '-' r3).bind fun r4 =>
  (takeDigits 2 r4).bind fun r5 =>
  (sepST r5).bind fun r6 =>
  (takeDigits 2 r6).bind fun r7 =>
  (lit ':' r7).bind fun r8 =>
  (takeDigits 2 r8).bind fun r9 =>
  (lit ':' r9).bind fun r10 =>
  (takeDigits 2 r10).bind fun r11 =>
  some (fracSkip r11)

/-- Regex `\[\w{3}\s+\d{2}\s+\d{2}:\d{2}:\d{2}\]` at the current position. -/
def matchSyslog (_ : Bool) (l : Str) : Option Str :=
  (lit '[' l).bind fun r1 =>
  (takeWord 3 r1).bind fun r2 =>
  (dropWhile1 isSpaceC r2).bind fun r3 =>
  (takeDigits 2 r3).bind fun r4 =>
  (dropWhile1 isSpaceC r4).bind fun r5 =>
  (takeDigits 2 r5).bind fun r6 =>
  (lit ':' r6).bind fun r7 =>
  (takeDigits 2 r7).bind fun r8 =>
  (lit ':' r8).bind fun r9 =>
  (takeDigits 2 r9).bind fun r10 =>
  lit ']' r10

/-- Word boundary after the match: next original character must not be a word character. -/
def boundaryAfter : Str → Bool
  | [] => true
  | c :: _ => !isWordC c

/-- Regex `\b0x[0-9A-Fa-f]+\b` at the current position; `pw` records whether the
preceding original character was a word character. -/
def matchHex (pw : Bool) (l : Str) : Option Str :=
  if pw then none
  else
    (lit '0' l).bind fun r1 =>
    (lit 'x' r1).bind fun r2 =>
    (dropWhile1 isHexC r2).bind fun r3 =>
    if boundaryAfter r3 then some r3 else none

/-- Regex `\b\d{4,}\b` at the current position. -/
def matchNum4 (pw : Bool) (l : Str) : Option Str :=
  if pw then none
  else
    (takeDigits 4 l).bind fun r1 =>
    let r2 := r1.dropWhile isDigitC
    if boundaryAfter r2 then some r2 else none

/-- Regex `\[[\w\s]+\]` at the current position (part_001's bracketed-tag pattern). -/
def matchTag (_ : Bool) (l : Str) : Option Str :=
  (lit '[' l).bind fun r1 =>
  (dropWhile1 isWordOrSpaceC r1).bind fun r2 =>
  lit ']' r2

/-- Regex `\d+` at the current position (part_001's digit-run pattern). -/
def matchNumAll (_ : Bool) (l : Str) : Option Str :=
  dropWhile1 isDigitC l

/-- Fuel-indexed left-to-right global replacement: at each position try the matcher;
on a match emit `repl` and continue after the matched text (with `aw` recording the
word-ness of the last matched original character, as JS `\b` looks at the original
string), otherwise emit the character and advance by one. -/
def scanF (m : Bool → Str → Option Str) (aw : Bool) (repl : Str) : Nat → Bool → Str → Str
  | 0, _, l => l
  | _ + 1, _, [] => []
  | f + 1, pw, c :: cs =>
    match m pw (c :: cs) with
    | some rest => repl ++ scanF m aw repl f aw rest
    | none => c :: scanF m aw repl f (isWordC c) cs

/-- JS `String.prototype.replace(/re/g, repl)` for the patterns above. -/
def scanAll (m : Bool → Str → Option Str) (aw : Bool) (repl : Str) (l : Str) : Str :=
  scanF m aw repl l.length false l

def tTIME : Str := s2l "<TIME>"
def tADDR : Str := s2l "<ADDR>"
def tNUM : Str := s2l "<NUM>"
def tIDold : Str := s2l "[ID]"
def tNumOld : Str := s2l "<num>"

/-! ### The insertion-ordered string-keyed map shared by the dedup variants -/

structure CacheEntry (α : Type) where
  key : Str
  original : α
  count : Nat
deriving DecidableEq

def hasKey {α : Type} : List (CacheEntry α) → Str → Bool
  | [], _ => false
  | e :: r, k => if e.key = k then true else hasKey r k

def bumpKey {α : Type} : List (CacheEntry α) → Str → List (CacheEntry α)
  | [], _ => []
  | e :: r, k => if e.key = k then ⟨e.key, e.original, e.count + 1⟩ :: r else e :: bumpKey r k

def getKey {α : Type} : List (CacheEntry α) → Str → Option (CacheEntry α)
  | [], _ => none
  | e :: r, k => if e.key = k then some e else getKey r k

/-- One `Map` update of the shared dedup pattern: first occurrence inserts a fresh
entry with count 1, later occurrences only increment the count. -/
def mapInsert {α : Type} (key : α → Str) (m : List (CacheEntry α)) (a : α) : List (CacheEntry α) :=
  if hasKey m (key a) then bumpKey m (key a) else m ++ [⟨key a, a, 1⟩]

def buildCache {α : Type} (key : α → Str) (l : List α) : List (CacheEntry α) :=
  l.foldl (mapInsert key) []

def reps {α : Type} (m : List (CacheEntry α)) : List α := m.map (fun e => e.original)

def keys {α : Type} (m : List (CacheEntry α)) : List Str := m.map (fun e => e.key)

def keyCount {α : Type} (key : α → Str) (l : List α) (k : Str) : Nat :=
  l.countP (fun a => decide (key a = k))

/-! ### part_002: line-based dedup with the timestamp/address-aware normalizer -/

namespace Part002

/-- Function `normalizeLine` from src/unnamed/part_002 lines 13-21. -/
def normalizeLine (line : Str) : Str :=
  trimC (scanAll matchNum4 true tNUM
    (scanAll matchHex true tADDR
      (scanAll matchSyslog false tTIME
        (scanAll matchISO false tTIME line))))

def lines2 (log : Str) : List Str :=
  ((splitOnNl log).map trimC).filter (fun l => !l.isEmpty)

def seen2 (log : Str) : List (CacheEntry Str) := buildCache normalizeLine (lines2 log)

/-- Function `deduplicateLog` from src/unnamed/part_002 lines 25-48. -/
def deduplicateLog (log : Str) : Str :=
  joinSep [nlc]
    ((seen2 log).map (fun e =>
      if e.count > 1 then e.original ++ countSuffix e.count else e.original))

end Part002

/-! ### part_004: block-based dedup on exact block text -/

/-- Accumulator-style block segmentation from src/unnamed/part_004 lines 17-30
(also realized by part_001's loop, see `loop1_spec`). -/
def toBlocksAux (cur : List Str) : List Str → List (List Str)
  | [] => if cur.isEmpty then [] else [cur]
  | line :: rest =>
    if (trimC line).isEmpty then
      if cur.isEmpty then toBlocksAux [] rest else cur :: toBlocksAux [] rest
    else toBlocksAux (cur ++ [line]) rest

def toBlocks (lines : List Str) : List (List Str) := toBlocksAux [] lines

namespace Part004

def cbump : List (Str × Nat) → Str → List (Str × Nat)
  | [], _ => []
  | (k', n) :: r, k => if k' = k then (k', n + 1) :: r else (k', n) :: cbump r k

def chas : List (Str × Nat) → Str → Bool
  | [], _ => false
  | (k', _) :: r, k => if k' = k then true else chas r k

def cget : List (Str × Nat) → Str → Option Nat
  | [], _ => none
  | (k', n) :: r, k => if k' = k then some n else cget r k

/-- One iteration of part_004's counting loop (lines 36-44): bump the count of the
block's exact joined text, recording first occurrences in `uniqueBlocks`. -/
def dedupFold (st : List (Str × Nat) × List (List Str)) (block : List Str) :
    List (Str × Nat) × List (List Str) :=
  let blockStr := joinSep [nlc] block
  if chas st.1 blockStr then (cbump st.1 blockStr, st.2)
  else (st.1 ++ [(blockStr, 1)], st.2 ++ [block])

def blocks4 (log : Str) : List (List Str) := toBlocks (splitOnNl log)

def counts4 (log : Str) : List (Str × Nat) := ((blocks4 log).foldl dedupFold ([], [])).1

def uniq4 (log : Str) : List (List Str) := ((blocks4 log).foldl dedupFold ([], [])).2

/-- Function `deduplicateLog` from src/unnamed/part_004 lines 12-54. -/
def deduplicateLog (log : Str) : Str :=
  joinSep [nlc, nlc]
    ((uniq4 log).map (fun block =>
      let blockStr := joinSep [nlc] block
      match cget (counts4 log) blockStr with
      | some n => if n > 1 then blockStr ++ countSuffix n else blockStr
      | none => blockStr))

end Part004

/-! ### part_001: block-based dedup with fingerprint cache and preserved blank lines -/

namespace Part001

/-- Function `normalizeErrorMessage` from src/unnamed/part_001 lines 435-439. -/
def normalizeErrorMessage (message : Str) : Str :=
  trimC (scanAll matchNumAll false tNumOld (scanAll matchTag false tIDold message))

structure St1 where
  errorCache : List (CacheEntry Str)
  processedLines : List Str
  currentErrorBlock : List Str

/-- Flushing the accumulated block into the cache (part_001 lines 455-471). -/
def flushBlock (st : St1) : St1 :=
  let originalBlock := joinSep [nlc] st.currentErrorBlock
  if hasKey st.errorCache (normalizeErrorMessage originalBlock) then
    { errorCache := bumpKey st.errorCache (normalizeErrorMessage originalBlock)
      processedLines := st.processedLines
      currentErrorBlock := [] }
  else
    { errorCache := st.errorCache ++ [⟨normalizeErrorMessage originalBlock, originalBlock, 1⟩]
      processedLines := st.processedLines ++ [originalBlock]
      currentErrorBlock := [] }

/-- Loop body for a non-final line (part_001 lines 450-478, `i < lines.length - 1`). -/
def step1 (st : St1) (line : Str) : St1 :=
  if (trimC line).isEmpty then
    let st' := if st.currentErrorBlock.isEmpty then st else flushBlock st
    { st' with processedLines := st'.processedLines ++ [[]] }
  else { st with currentErrorBlock := st.currentErrorBlock ++ [line] }

/-- Loop body for the final line (`i = lines.length - 1`). -/
def last1 (st : St1) (line : Str) : St1 :=
  let stA := if (trimC line).isEmpty then st
             else { st with currentErrorBlock := st.currentErrorBlock ++ [line] }
  let stB := if stA.currentErrorBlock.isEmpty then stA else flushBlock stA
  if (trimC line).isEmpty then { stB with processedLines := stB.processedLines ++ [[]] }
  else stB

def loop1 : St1 → List Str → St1
  | st, [] => st
  | st, [l] => last1 st l
  | st, l :: l' :: rest => loop1 (step1 st l) (l' :: rest)

def finalState (log : Str) : St1 := loop1 ⟨[], [], []⟩ (splitOnNl log)

def processedLines1 (log : Str) : List Str := (finalState log).processedLines

def errorCache1 (log : Str) : List (CacheEntry Str) := (finalState log).errorCache

/-- Function `deduplicateLog` from src/unnamed/part_001 lines 441-491. -/
def deduplicateLog (log : Str) : Str :=
  joinSep [nlc]
    ((processedLines1 log).map (fun line =>
      if line.isEmpty then []
      else
        match getKey (errorCache1 log) (normalizeErrorMessage line) with
        | some e => if e.count > 1 then line ++ countSuffix e.count else line
        | none => line))

/-- The exact joined texts of the input's blocks, part_001's dedup keys domain. -/
def blockTexts (log : Str) : List Str := (toBlocks (splitOnNl log)).map (joinSep [nlc])

end Part001

/-- Projection of the generic cache onto part_004's counts map (proof helper). -/
def proj1 (S : List (CacheEntry (List Str))) : List (Str × Nat) :=
  S.map (fun e => (e.key, e.count))

/-! ### Schematic ISO timestamps (for the normalizer collapse statements) -/

def mkISO (y1 y2 y3 y4 mo1 mo2 d1 d2 sep h1c h2c mi1 mi2 se1 se2 : Char) : Str :=
  [y1, y2, y3, y4, '-', mo1, mo2, '-', d1, d2, sep, h1c, h2c, ':', mi1, mi2, ':', se1, se2]

/-- Whether the string starts with a fractional-seconds continuation `.digit`. -/
def fracStart : Str → Bool
  | c1 :: c2 :: _ => decide (c1 = '.') && isDigitC c2
  | _ => false

/-- Schematic bracketed syslog timestamp `[www dd hh:mm:ss]` (17 characters). -/
def mkSyslog (w1 w2 w3 da1 da2 hh1 hh2 mm1 mm2 ss1 ss2 : Char) : Str :=
  ['[', w1, w2, w3, ' ', da1, da2, ' ', hh1, hh2, ':', mm1, mm2, ':', ss1, ss2, ']']

/-- Whether the string does not start with a dash (guards cross-token ISO matches). -/
def headNotDash : Str → Bool
  | [] => true
  | c :: _ => !(c == '-')

/-! ## shared/schema.ts and server/routes.ts (storage and request handling) -/

structure InsertLog where
  originalContent : Str
  cleanedContent : Str
deriving DecidableEq

structure Log where
  id : Nat
  originalContent : Str
  cleanedContent : Str
deriving DecidableEq

structure MemStorage where
  logs : List (Nat × Log)
  currentId : Nat
deriving DecidableEq

/-- JS `Map.prototype.set`: replace in place if present, else append. -/
def assocSet : List (Nat × Log) → Nat → Log → List (Nat × Log)
  | [], k, v => [(k, v)]
  | (k', v') :: r, k, v => if k' = k then (k, v) :: r else (k', v') :: assocSet r k v

def assocGet : List (Nat × Log) → Nat → Option Log
  | [], _ => none
  | (k', v') :: r, k => if k' = k then some v' else assocGet r k

/-- Constructor of `MemStorage`: empty map, `currentId = 1`. -/
def MemStorage.init : MemStorage := ⟨[], 1⟩

/-- Method `createLog` of MemStorage from src/server/routes.ts lines 65-70. -/
def MemStorage.createLog (st : MemStorage) (insertLog : InsertLog) : Log × MemStorage :=
  let id := st.currentId
  let log : Log := ⟨id, insertLog.originalContent, insertLog.cleanedContent⟩
  (log, ⟨assocSet st.logs id log, id + 1⟩)

/-- Method `getLog` of MemStorage from src/server/routes.ts lines 72-74. -/
def MemStorage.getLog (st : MemStorage) (id : Nat) : Option Log :=
  assocGet st.logs id

/-- A sequence of `createLog` calls, returning the created logs in call order. -/
def runCreates : MemStorage → List InsertLog → List Log × MemStorage
  | st, [] => ([], st)
  | st, i :: is =>
    let r := st.createLog i
    let rest := runCreates r.2 is
    (r.1 :: rest.1, rest.2)

/-- Request bodies for POST /api/clean-log as zod's `cleanLogRequestSchema` sees them. -/
inductive ReqBody
  | noLog
  | nonString
  | logVal (s : Str)

/-- Validation `cleanLogRequestSchema.parse` (shared/schema.ts lines 16-18): `log` must be a
string of length at least 1; zod reports "Log content is required" for an empty
string and "Required" for a missing field. -/
def parseCleanLog : ReqBody → Except Str Str
  | .logVal s => if s.isEmpty then .error (s2l "Log content is required") else .ok s
  | _ => .error (s2l "Required")

structure HandlerOutcome where
  status : Nat
  store : MemStorage
  llmCalled : Bool
  resp : Str
deriving DecidableEq

/-- The POST /api/clean-log handler (src/server/routes.ts lines 11-44), with the
OpenAI call abstracted as the fallible collaborator `llm`: a `ZodError` is caught
as status 400 before any LLM call or store write; an LLM failure lands in the
catch-all as status 500; on success the pair is stored and 200 returned. -/
def postCleanLog (body : ReqBody) (llm : Str → Except Str Str) (st : MemStorage) :
    HandlerOutcome :=
  match parseCleanLog body with
  | .error msg => ⟨400, st, false, msg⟩
  | .ok log =>
    match llm log with
    | .error _ => ⟨500, st, true, s2l "Error processing log"⟩
    | .ok cleaned =>
      let r := st.createLog ⟨log, cleaned⟩
      ⟨200, r.2, true, cleaned⟩

/-- The map contents produced by consecutive ids starting at `k`. -/
def logsFrom (k : Nat) : List InsertLog → List (Nat × Log)
  | [] => []
  | i :: is => (k, ⟨k, i.originalContent, i.cleanedContent⟩) :: logsFrom (k + 1) is


/-! ## Lemmas about the insertion-ordered cache -/

theorem hasKey_isSome {α : Type} (m : List (CacheEntry α)) (k : Str) :
    hasKey m k = (getKey m k).isSome := by
  induction m with
  | nil => rfl
  | cons e r ih =>
    simp only [hasKey, getKey]
    by_cases h : e.key = k <;> simp [h, ih]

theorem getKey_bumpKey {α : Type} (m : List (CacheEntry α)) (k k' : Str) :
    getKey (bumpKey m k') k =
      if k = k' then (getKey m k).map (fun e => ⟨e.key, e.original, e.count + 1⟩)
      else getKey m k := by
  induction m with
  | nil => by_cases h : k = k' <;> simp [bumpKey, getKey, h]
  | cons e r ih =>
    by_cases h1 : e.key = k'
    · by_cases h2 : k = k'
      · have h3 : e.key = k := h1.trans h2.symm
        simp [bumpKey, getKey, h1, h2, h3]
      · have h3 : ¬ e.key = k := fun hh => h2 (hh.symm.trans h1)
        have h4 : ¬ k' = k := fun hh => h2 hh.symm
        simp [bumpKey, getKey, h1, h2, h3, h4]
    · by_cases h2 : e.key = k
      · have h3 : ¬ k = k' := fun hh => h1 (h2.trans hh)
        simp [bumpKey, getKey, h1, h2, h3]
      · simp [bumpKey, getKey, h1, h2, ih]

theorem getKey_append_one {α : Type} (m : List (CacheEntry α)) (e : CacheEntry α) (k : Str) :
    getKey (m ++ [e]) k =
      match getKey m k with
      | some x => some x
      | none => if e.key = k then some e else none := by
  induction m with
  | nil => simp [getKey]
  | cons f r ih =>
    by_cases h : f.key = k <;> simp [getKey, h, ih]

theorem getKey_mapInsert {α : Type} (key : α → Str) (m : List (CacheEntry α)) (a : α) (k : Str) :
    getKey (mapInsert key m a) k =
      if k = key a then
        match getKey m k with
        | some e => some ⟨e.key, e.original, e.count + 1⟩
        | none => some ⟨key a, a, 1⟩
      else getKey m k := by
  unfold mapInsert
  by_cases h : hasKey m (key a)
  · rw [if_pos h, getKey_bumpKey]
    by_cases h2 : k = key a
    · rw [if_pos h2, if_pos h2]
      rw [hasKey_isSome] at h
      cases hg : getKey m k
      · rw [h2] at hg
        rw [hg] at h
        simp at h
      · simp [hg]
    · rw [if_neg h2, if_neg h2]
  · rw [if_neg h, getKey_append_one]
    rw [hasKey_isSome] at h
    by_cases h2 : k = key a
    · cases hg : getKey m k
      · simp only [hg, if_pos h2.symm, ← h2]
      · rw [h2] at hg
        rw [hg] at h
        simp at h
    · have h3 : ¬ key a = k := fun hh => h2 hh.symm
      cases hg : getKey m k
      · simp [hg, h2, h3]
      · simp [hg, h2]

theorem keyCount_nil {α : Type} (key : α → Str) (k : Str) : keyCount key [] k = 0 := rfl

theorem keyCount_cons {α : Type} (key : α → Str) (a : α) (l : List α) (k : Str) :
    keyCount key (a :: l) k = keyCount key l k + if key a = k then 1 else 0 := by
  simp [keyCount, List.countP_cons]

/-- Final cache content after folding `mapInsert` over a list: the entry at key `k`
keeps the initial entry's representative (or the first new item with that key) and
accumulates exactly the number of items whose key is `k`. -/
theorem getKey_fold {α : Type} (key : α → Str) (l : List α) (S : List (CacheEntry α)) (k : Str) :
    getKey (l.foldl (mapInsert key) S) k =
      match getKey S k, l.find? (fun a => decide (key a = k)) with
      | some e, _ => some ⟨e.key, e.original, e.count + keyCount key l k⟩
      | none, some a => some ⟨k, a, keyCount key l k⟩
      | none, none => none := by
  induction l generalizing S with
  | nil =>
    cases hS : getKey S k
    · simp [hS, keyCount]
    · simp [hS, keyCount]
  | cons a l ih =>
    rw [List.foldl_cons, ih, getKey_mapInsert]
    by_cases hk : k = key a
    · have hfa : (fun x => decide (key x = k)) a = true := by simp [hk]
      have hcnt : keyCount key (a :: l) k = keyCount key l k + 1 := by
        rw [keyCount_cons, if_pos hk.symm]
      rw [@List.find?_cons_of_pos _ (fun x => decide (key x = k)) a l hfa, if_pos hk, hcnt]
      cases hS : getKey S k
      · simp only [hS, Option.some.injEq, CacheEntry.mk.injEq]
        exact ⟨hk.symm, trivial, by omega⟩
      · simp only [hS, Option.some.injEq, CacheEntry.mk.injEq]
        exact ⟨trivial, trivial, by omega⟩
    · have h3 : ¬ key a = k := fun hh => hk hh.symm
      have hfa : ¬ ((fun x => decide (key x = k)) a = true) := by
        simp only [decide_eq_true_eq]
        exact h3
      have hcnt : keyCount key (a :: l) k = keyCount key l k := by
        rw [keyCount_cons, if_neg h3, Nat.add_zero]
      rw [@List.find?_cons_of_neg _ (fun x => decide (key x = k)) a l hfa, if_neg hk, hcnt]

theorem reps_bumpKey {α : Type} (m : List (CacheEntry α)) (k : Str) :
    reps (bumpKey m k) = reps m := by
  induction m with
  | nil => rfl
  | cons e r ih =>
    by_cases h : e.key = k <;> simp [bumpKey, reps, h] <;> simpa [reps] using ih

theorem keys_bumpKey {α : Type} (m : List (CacheEntry α)) (k : Str) :
    keys (bumpKey m k) = keys m := by
  induction m with
  | nil => rfl
  | cons e r ih =>
    by_cases h : e.key = k <;> simp [bumpKey, keys, h] <;> simpa [keys] using ih

theorem reps_mapInsert_pos {α : Type} (key : α → Str) (m : List (CacheEntry α)) (a : α)
    (h : hasKey m (key a) = true) : reps (mapInsert key m a) = reps m := by
  simp [mapInsert, h, reps_bumpKey]

theorem reps_mapInsert_neg {α : Type} (key : α → Str) (m : List (CacheEntry α)) (a : α)
    (h : hasKey m (key a) = false) : reps (mapInsert key m a) = reps m ++ [a] := by
  simp [mapInsert, h, reps]

theorem keys_mapInsert_pos {α : Type} (key : α → Str) (m : List (CacheEntry α)) (a : α)
    (h : hasKey m (key a) = true) : keys (mapInsert key m a) = keys m := by
  simp [mapInsert, h, keys_bumpKey]

theorem keys_mapInsert_neg {α : Type} (key : α → Str) (m : List (CacheEntry α)) (a : α)
    (h : hasKey m (key a) = false) : keys (mapInsert key m a) = keys m ++ [key a] := by
  simp [mapInsert, h, keys]

theorem hasKey_mem_keys {α : Type} (m : List (CacheEntry α)) (k : Str) :
    hasKey m k = true ↔ k ∈ keys m := by
  induction m with
  | nil => simp [hasKey, keys]
  | cons e r ih =>
    by_cases h : e.key = k
    · simp [hasKey, keys, h]
    · have h2 : ¬ k = e.key := fun hh => h hh.symm
      simp [hasKey, keys, h, h2, ih]

/-- Representatives only ever get appended, in input order: the final representative
list extends the initial one by a sublist of the processed items. -/
theorem reps_fold_sublist {α : Type} (key : α → Str) (l : List α) (S : List (CacheEntry α)) :
    ∃ t, reps (l.foldl (mapInsert key) S) = reps S ++ t ∧ t.Sublist l := by
  induction l generalizing S with
  | nil => exact ⟨[], by simp, List.nil_sublist _⟩
  | cons a l ih =>
    rw [List.foldl_cons]
    obtain ⟨t, ht, hs⟩ := ih (mapInsert key S a)
    by_cases h : hasKey S (key a)
    · rw [reps_mapInsert_pos key S a h] at ht
      exact ⟨t, ht, hs.cons a⟩
    · rw [reps_mapInsert_neg key S a (by simpa using h)] at ht
      refine ⟨a :: t, ?_, hs.cons₂ a⟩
      rw [ht, List.append_assoc]
      rfl

theorem mem_bumpKey {α : Type} {m : List (CacheEntry α)} {k : Str} {e : CacheEntry α}
    (h : e ∈ bumpKey m k) : ∃ f ∈ m, e.key = f.key ∧ e.original = f.original := by
  induction m with
  | nil => simp [bumpKey] at h
  | cons f r ih =>
    by_cases hf : f.key = k
    · simp only [bumpKey, if_pos hf] at h
      rcases List.mem_cons.1 h with h1 | h1
      · exact ⟨f, List.mem_cons_self f r, by simp [h1]⟩
      · exact ⟨e, List.mem_cons_of_mem f h1, rfl, rfl⟩
    · simp only [bumpKey, if_neg hf] at h
      rcases List.mem_cons.1 h with h1 | h1
      · exact ⟨f, List.mem_cons_self f r, by simp [h1]⟩
      · obtain ⟨g, hg, hgs⟩ := ih h1
        exact ⟨g, List.mem_cons_of_mem f hg, hgs⟩

/-- Every entry of the built cache is keyed by the fingerprint of its representative. -/
theorem wf_fold {α : Type} (key : α → Str) (l : List α) (S : List (CacheEntry α))
    (hS : ∀ e ∈ S, e.key = key e.original) :
    ∀ e ∈ l.foldl (mapInsert key) S, e.key = key e.original := by
  induction l generalizing S with
  | nil => exact hS
  | cons a l ih =>
    rw [List.foldl_cons]
    refine ih (mapInsert key S a) ?_
    intro e he
    unfold mapInsert at he
    by_cases h : hasKey S (key a)
    · rw [if_pos h] at he
      obtain ⟨f, hf, h1, h2⟩ := mem_bumpKey he
      rw [h1, h2]
      exact hS f hf
    · rw [if_neg h] at he
      rcases List.mem_append.1 he with h1 | h1
      · exact hS e h1
      · simp at h1
        rw [h1]

theorem keys_nodup_fold {α : Type} (key : α → Str) (l : List α) (S : List (CacheEntry α))
    (hS : (keys S).Nodup) : (keys (l.foldl (mapInsert key) S)).Nodup := by
  induction l generalizing S with
  | nil => exact hS
  | cons a l ih =>
    rw [List.foldl_cons]
    refine ih (mapInsert key S a) ?_
    by_cases h : hasKey S (key a)
    · rw [keys_mapInsert_pos key S a h]
      exact hS
    · rw [keys_mapInsert_neg key S a (by simpa using h)]
      have hnot : key a ∉ keys S := by
        intro hmem
        exact absurd ((hasKey_mem_keys S (key a)).2 hmem) (by simpa using h)
      simp [List.nodup_append, hS, hnot]

theorem mem_getKey {α : Type} {m : List (CacheEntry α)} {e : CacheEntry α}
    (hnd : (keys m).Nodup) (he : e ∈ m) : getKey m e.key = some e := by
  induction m with
  | nil => simp at he
  | cons f r ih =>
    have hnd1 : f.key ∉ keys r ∧ (keys r).Nodup := by
      have h0 := hnd
      simp only [keys, List.map_cons] at h0
      exact List.nodup_cons.1 h0
    rcases List.mem_cons.1 he with h1 | h1
    · simp [getKey, h1]
    · have hfk : ¬ f.key = e.key := by
        intro hh
        refine hnd1.1 ?_
        rw [hh]
        exact List.mem_map.2 ⟨e, h1, rfl⟩
      simp only [getKey, if_neg hfk]
      exact ih hnd1.2 h1

theorem getKey_mem {α : Type} {m : List (CacheEntry α)} {k : Str} {e : CacheEntry α}
    (h : getKey m k = some e) : e ∈ m ∧ e.key = k := by
  induction m with
  | nil => simp [getKey] at h
  | cons f r ih =>
    by_cases hf : f.key = k
    · simp only [getKey, if_pos hf] at h
      obtain rfl : f = e := by injection h
      exact ⟨List.mem_cons_self f r, hf⟩
    · simp only [getKey, if_neg hf] at h
      obtain ⟨h1, h2⟩ := ih h
      exact ⟨List.mem_cons_of_mem f h1, h2⟩

theorem keys_nodup_buildCache {α : Type} (key : α → Str) (l : List α) :
    (keys (buildCache key l)).Nodup := keys_nodup_fold key l [] (by simp [keys])

theorem wf_buildCache {α : Type} (key : α → Str) (l : List α) :
    ∀ e ∈ buildCache key l, e.key = key e.original :=
  wf_fold key l [] (by simp)

theorem reps_buildCache_sublist {α : Type} (key : α → Str) (l : List α) :
    (reps (buildCache key l)).Sublist l := by
  obtain ⟨t, ht, hs⟩ := reps_fold_sublist key l []
  have : reps (buildCache key l) = t := by simpa [reps] using ht
  rw [this]
  exact hs

/-- Each representative of the built cache is the first item of the input carrying
its fingerprint, and its entry counts exactly the matching items. -/
theorem rep_first {α : Type} (key : α → Str) (l : List α) {b : α}
    (hb : b ∈ reps (buildCache key l)) :
    l.find? (fun a => decide (key a = key b)) = some b ∧
      getKey (buildCache key l) (key b) = some ⟨key b, b, keyCount key l (key b)⟩ := by
  obtain ⟨e, he, hrep⟩ := List.mem_map.1 hb
  have hwf : e.key = key e.original := wf_buildCache key l e he
  have hg : getKey (buildCache key l) e.key = some e :=
    mem_getKey (keys_nodup_buildCache key l) he
  rw [buildCache, getKey_fold] at hg
  simp only [getKey] at hg
  cases hF : l.find? (fun a => decide (key a = e.key)) with
  | none => rw [hF] at hg; exact absurd hg (by simp)
  | some a =>
    rw [hF] at hg
    have h1 : e.key = key b := by rw [hwf, hrep]
    have h2 : (⟨e.key, a, keyCount key l e.key⟩ : CacheEntry α) = e := by
      injection hg
    have ha : a = b := by
      rw [← hrep, ← h2]
    constructor
    · rw [← h1, hF, ha]
    · rw [← h1, buildCache, getKey_fold]
      simp only [getKey, hF]
      rw [ha]
  
theorem key_covered {α : Type} (key : α → Str) (l : List α) {x : α} (hx : x ∈ l) :
    ∃ b ∈ reps (buildCache key l), key b = key x := by
  have hfind : (l.find? (fun a => decide (key a = key x))).isSome := by
    rw [List.find?_isSome]
    exact ⟨x, hx, by simp⟩
  cases hF : l.find? (fun a => decide (key a = key x)) with
  | none => rw [hF] at hfind; simp at hfind
  | some a =>
    have hpa : key a = key x := by
      have := List.find?_some hF
      simpa using this
    have hg : getKey (buildCache key l) (key x) =
        some ⟨key x, a, keyCount key l (key x)⟩ := by
      rw [buildCache, getKey_fold]
      simp only [getKey, hF]
    obtain ⟨hmem, _⟩ := getKey_mem hg
    exact ⟨a, List.mem_map.2 ⟨_, hmem, rfl⟩, hpa⟩

/-- If all fingerprints are distinct, every item is its own first occurrence: the
cache lists every item, in order, each with count 1. -/
theorem reps_of_nodup {α : Type} (key : α → Str) (l : List α)
    (h : (l.map key).Nodup) : reps (buildCache key l) = l := by
  have hsub : (reps (buildCache key l)).Sublist l := reps_buildCache_sublist key l
  have hsubset : l.map key ⊆ (reps (buildCache key l)).map key := by
    intro k hk
    obtain ⟨x, hx, rfl⟩ := List.mem_map.1 hk
    obtain ⟨b, hb, hkey⟩ := key_covered key l hx
    exact List.mem_map.2 ⟨b, hb, hkey⟩
  have hlen : l.length ≤ (reps (buildCache key l)).length := by
    have := (List.subperm_of_subset h hsubset).length_le
    simpa using this
  exact (hsub.eq_of_length (Nat.le_antisymm hsub.length_le hlen)).symm ▸ rfl

theorem countP_eq_one_of_nodup {a : Str} {u : List Str} (h : u.Nodup) (ha : a ∈ u) :
    u.countP (fun x => decide (x = a)) = 1 := by
  induction u with
  | nil => simp at ha
  | cons b u ih =>
    rcases List.mem_cons.1 ha with h1 | h1
    · subst h1
      have hnotin := (List.nodup_cons.1 h).1
      have : u.countP (fun x => decide (x = a)) = 0 := by
        rw [List.countP_eq_zero]
        intro x hx
        simp only [decide_eq_true_eq]
        intro hxa
        exact hnotin (hxa ▸ hx)
      simp [List.countP_cons, this]
    · have hba : ¬ b = a := by
        intro hh
        exact (List.nodup_cons.1 h).1 (hh ▸ h1)
      rw [List.countP_cons]
      simp only [decide_eq_true_eq, hba, if_false]
      exact ih (List.nodup_cons.1 h).2 h1

/-! ## part_004's paired fold is the projection of the generic cache -/


theorem chas_proj1 (S : List (CacheEntry (List Str))) (k : Str) :
    Part004.chas (proj1 S) k = hasKey S k := by
  induction S with
  | nil => rfl
  | cons e r ih =>
    by_cases h : e.key = k <;> simp [proj1, Part004.chas, hasKey, h] <;>
      simpa [proj1] using ih

theorem cbump_proj1 (S : List (CacheEntry (List Str))) (k : Str) :
    Part004.cbump (proj1 S) k = proj1 (bumpKey S k) := by
  induction S with
  | nil => rfl
  | cons e r ih =>
    by_cases h : e.key = k <;> simp [proj1, Part004.cbump, bumpKey, h] <;>
      simpa [proj1] using ih

theorem cget_proj1 (S : List (CacheEntry (List Str))) (k : Str) :
    Part004.cget (proj1 S) k = (getKey S k).map (fun e => e.count) := by
  induction S with
  | nil => rfl
  | cons e r ih =>
    by_cases h : e.key = k <;> simp [proj1, Part004.cget, getKey, h] <;>
      simpa [proj1] using ih

theorem fold4_proj (l : List (List Str)) (S : List (CacheEntry (List Str))) :
    l.foldl Part004.dedupFold (proj1 S, reps S) =
      (proj1 (l.foldl (mapInsert (joinSep [nlc])) S),
        reps (l.foldl (mapInsert (joinSep [nlc])) S)) := by
  induction l generalizing S with
  | nil => rfl
  | cons b l ih =>
    rw [List.foldl_cons, List.foldl_cons]
    have hstep : Part004.dedupFold (proj1 S, reps S) b =
        (proj1 (mapInsert (joinSep [nlc]) S b), reps (mapInsert (joinSep [nlc]) S b)) := by
      simp only [Part004.dedupFold, mapInsert, chas_proj1]
      by_cases h : hasKey S (joinSep [nlc] b)
      · rw [if_pos h, if_pos h, cbump_proj1, reps_bumpKey]
      · rw [if_neg h, if_neg h]
        simp [proj1, reps]
    rw [hstep]
    exact ih (mapInsert (joinSep [nlc]) S b)

theorem counts4_eq (log : Str) :
    Part004.counts4 log = proj1 (buildCache (joinSep [nlc]) (Part004.blocks4 log)) := by
  unfold Part004.counts4 buildCache
  have h0 : (([], []) : List (Str × Nat) × List (List Str)) = (proj1 [], reps []) := rfl
  rw [h0, fold4_proj]

theorem uniq4_eq (log : Str) :
    Part004.uniq4 log = reps (buildCache (joinSep [nlc]) (Part004.blocks4 log)) := by
  unfold Part004.uniq4 buildCache
  have h0 : (([], []) : List (Str × Nat) × List (List Str)) = (proj1 [], reps []) := rfl
  rw [h0, fold4_proj]

/-- part_004's output formatted with the true multiset count of each block text. -/
theorem dedup4_true_counts (log : Str) :
    Part004.deduplicateLog log =
      joinSep [nlc, nlc]
        ((Part004.uniq4 log).map (fun block =>
          if keyCount (joinSep [nlc]) (Part004.blocks4 log) (joinSep [nlc] block) > 1 then
            joinSep [nlc] block ++
              countSuffix (keyCount (joinSep [nlc]) (Part004.blocks4 log) (joinSep [nlc] block))
          else joinSep [nlc] block)) := by
  unfold Part004.deduplicateLog
  congr 1
  refine List.map_congr_left ?_
  intro b hb
  rw [uniq4_eq] at hb
  obtain ⟨-, hget⟩ := rep_first (joinSep [nlc]) (Part004.blocks4 log) hb
  rw [counts4_eq]
  simp only [cget_proj1, hget, Option.map]

/-! ## part_001's scan loop: cache and processed lines via `toBlocksAux` -/

theorem trimC_nil : trimC [] = [] := rfl

theorem ne_nil_of_not_blank {x : Str} (hx : (trimC x).isEmpty = false) : x ≠ [] := by
  intro h
  rw [h, trimC_nil] at hx
  simp at hx

theorem joinSep_nlc_ne_nil {cur : List Str} (hc : cur ≠ [])
    (hx : ∀ x ∈ cur, (trimC x).isEmpty = false) : joinSep [nlc] cur ≠ [] := by
  match cur, hc with
  | [x], _ =>
    have : x ≠ [] := ne_nil_of_not_blank (hx x (List.mem_singleton.2 rfl))
    simpa [joinSep] using this
  | x :: y :: r, _ =>
    simp [joinSep]

namespace Part001

theorem flush_state (S : List (CacheEntry Str)) (pl cur : List Str) :
    flushBlock ⟨S, pl, cur⟩ =
      ⟨mapInsert normalizeErrorMessage S (joinSep [nlc] cur),
        if hasKey S (normalizeErrorMessage (joinSep [nlc] cur)) then pl
        else pl ++ [joinSep [nlc] cur],
        []⟩ := by
  unfold flushBlock mapInsert
  by_cases h : hasKey S (normalizeErrorMessage (joinSep [nlc] cur)) <;> simp [h]

theorem flush_filter (S : List (CacheEntry Str)) (pl cur : List Str)
    (hinv : pl.filter (fun l => !l.isEmpty) = reps S)
    (hob : joinSep [nlc] cur ≠ []) :
    ((flushBlock ⟨S, pl, cur⟩).processedLines).filter (fun l => !l.isEmpty) =
      reps ((flushBlock ⟨S, pl, cur⟩).errorCache) := by
  rw [flush_state]
  by_cases h : hasKey S (normalizeErrorMessage (joinSep [nlc] cur))
  · simp only [if_pos h]
    rw [hinv]
    unfold mapInsert
    rw [if_pos h, reps_bumpKey]
  · simp only [if_neg h]
    rw [List.filter_append, hinv]
    unfold mapInsert
    rw [if_neg h]
    have hpos : (fun l : Str => !l.isEmpty) (joinSep [nlc] cur) = true := by
      simp [List.isEmpty_iff, hob]
    simp [reps, List.filter, hpos]

/-- Running part_001's loop flushes exactly the blocks described by `toBlocksAux`:
its cache is the generic fingerprint cache over those blocks' joined texts, and the
non-blank processed lines are exactly the cache's representatives, in order. -/
theorem loop1_spec : ∀ (lines : List Str), lines ≠ [] →
    ∀ (S : List (CacheEntry Str)) (pl cur : List Str),
      pl.filter (fun l => !l.isEmpty) = reps S →
      (∀ x ∈ cur, (trimC x).isEmpty = false) →
      (loop1 ⟨S, pl, cur⟩ lines).errorCache =
          ((toBlocksAux cur lines).map (joinSep [nlc])).foldl (mapInsert normalizeErrorMessage) S
        ∧ (loop1 ⟨S, pl, cur⟩ lines).processedLines.filter (fun l => !l.isEmpty) =
            reps ((loop1 ⟨S, pl, cur⟩ lines).errorCache)
  | [], hne => absurd rfl hne
  | [l], _ => by
    intro S pl cur hinv hcur
    have hloop : loop1 ⟨S, pl, cur⟩ [l] = last1 ⟨S, pl, cur⟩ l := rfl
    by_cases hb : (trimC l).isEmpty = true
    · by_cases hc : cur.isEmpty = true
      · have hcur0 : cur = [] := List.isEmpty_iff.1 hc
        subst hcur0
        have h1 : last1 ⟨S, pl, []⟩ l = ⟨S, pl ++ [[]], []⟩ := by
          unfold last1
          simp [hb]
        rw [hloop, h1]
        constructor
        · simp [toBlocksAux, hb]
        · simp only [List.filter_append]
          simpa using hinv
      · have hc' : cur ≠ [] := by simpa [List.isEmpty_iff] using hc
        have hob := joinSep_nlc_ne_nil hc' hcur
        have h1 : last1 ⟨S, pl, cur⟩ l =
            ⟨mapInsert normalizeErrorMessage S (joinSep [nlc] cur),
              (if hasKey S (normalizeErrorMessage (joinSep [nlc] cur)) then pl
               else pl ++ [joinSep [nlc] cur]) ++ [[]], []⟩ := by
          unfold last1
          simp [hb, hc, flush_state]
        have hfc := flush_filter S pl cur hinv hob
        simp only [flush_state] at hfc
        rw [hloop, h1]
        constructor
        · simp [toBlocksAux, hb, hc]
        · simp only [List.filter_append]
          simpa using hfc
    · have hb' : (trimC l).isEmpty = false := by simpa using hb
      have hne2 : (cur ++ [l] : List Str) ≠ [] := by simp
      have hcur2 : ∀ x ∈ cur ++ [l], (trimC x).isEmpty = false := by
        intro x hx
        rcases List.mem_append.1 hx with h1 | h1
        · exact hcur x h1
        · rw [List.mem_singleton.1 h1]
          exact hb'
      have hob := joinSep_nlc_ne_nil hne2 hcur2
      have h1 : last1 ⟨S, pl, cur⟩ l = flushBlock ⟨S, pl, cur ++ [l]⟩ := by
        unfold last1
        have he : ((cur ++ [l] : List Str).isEmpty) = false := by simp
        simp [hb', he]
      have hfc := flush_filter S pl (cur ++ [l]) hinv hob
      rw [hloop, h1]
      constructor
      · rw [flush_state]
        simp [toBlocksAux, hb']
      · exact hfc
  | l :: l2 :: rest, _ => by
    intro S pl cur hinv hcur
    have hloop : loop1 ⟨S, pl, cur⟩ (l :: l2 :: rest) =
        loop1 (step1 ⟨S, pl, cur⟩ l) (l2 :: rest) := rfl
    by_cases hb : (trimC l).isEmpty = true
    · by_cases hc : cur.isEmpty = true
      · have hcur0 : cur = [] := List.isEmpty_iff.1 hc
        subst hcur0
        have h1 : step1 ⟨S, pl, []⟩ l = ⟨S, pl ++ [[]], []⟩ := by
          unfold step1
          simp [hb]
        have hinv2 : (pl ++ [[]]).filter (fun l => !l.isEmpty) = reps S := by
          simp only [List.filter_append]
          simpa using hinv
        have ih := loop1_spec (l2 :: rest) (by simp) S (pl ++ [[]]) [] hinv2 (by simp)
        rw [hloop, h1]
        refine ⟨?_, ih.2⟩
        rw [ih.1]
        simp [toBlocksAux, hb]
      · have hc' : cur ≠ [] := by simpa [List.isEmpty_iff] using hc
        have hob := joinSep_nlc_ne_nil hc' hcur
        have h1 : step1 ⟨S, pl, cur⟩ l =
            ⟨mapInsert normalizeErrorMessage S (joinSep [nlc] cur),
              (if hasKey S (normalizeErrorMessage (joinSep [nlc] cur)) then pl
               else pl ++ [joinSep [nlc] cur]) ++ [[]], []⟩ := by
          unfold step1
          simp [hb, hc, flush_state]
        have hfc := flush_filter S pl cur hinv hob
        simp only [flush_state] at hfc
        have hinv2 :
            (((if hasKey S (normalizeErrorMessage (joinSep [nlc] cur)) then pl
               else pl ++ [joinSep [nlc] cur]) ++ [[]]).filter (fun l => !l.isEmpty)) =
              reps (mapInsert normalizeErrorMessage S (joinSep [nlc] cur)) := by
          simp only [List.filter_append]
          simpa using hfc
        have ih := loop1_spec (l2 :: rest) (by simp)
          (mapInsert normalizeErrorMessage S (joinSep [nlc] cur))
          ((if hasKey S (normalizeErrorMessage (joinSep [nlc] cur)) then pl
            else pl ++ [joinSep [nlc] cur]) ++ [[]]) [] hinv2 (by simp)
        rw [hloop, h1]
        refine ⟨?_, ih.2⟩
        rw [ih.1]
        simp [toBlocksAux, hb, hc]
    · have hb' : (trimC l).isEmpty = false := by simpa using hb
      have h1 : step1 ⟨S, pl, cur⟩ l = ⟨S, pl, cur ++ [l]⟩ := by
        unfold step1
        simp [hb']
      have hcur2 : ∀ x ∈ cur ++ [l], (trimC x).isEmpty = false := by
        intro x hx
        rcases List.mem_append.1 hx with h1 | h1
        · exact hcur x h1
        · rw [List.mem_singleton.1 h1]
          exact hb'
      have ih := loop1_spec (l2 :: rest) (by simp) S pl (cur ++ [l]) hinv hcur2
      rw [hloop, h1]
      refine ⟨?_, ih.2⟩
      rw [ih.1]
      simp [toBlocksAux, hb']

end Part001

theorem splitOnNl_ne_nil (l : Str) : splitOnNl l ≠ [] := by
  cases l with
  | nil => simp [splitOnNl]
  | cons c cs =>
    unfold splitOnNl
    by_cases h : c = nlc
    · simp [h]
    · simp only [h, if_false]
      cases hs : splitOnNl cs <;> simp

namespace Part001

theorem finalState_spec (log : Str) :
    errorCache1 log = buildCache normalizeErrorMessage (blockTexts log) ∧
      (processedLines1 log).filter (fun l => !l.isEmpty) = reps (errorCache1 log) := by
  have h := loop1_spec (splitOnNl log) (splitOnNl_ne_nil log) [] [] []
    (by simp [reps]) (by simp)
  exact ⟨h.1, h.2⟩

/-- part_001's output formatted with the true multiset count of each fingerprint. -/
theorem dedup1_true_counts (log : Str) :
    deduplicateLog log =
      joinSep [nlc] ((processedLines1 log).map (fun line =>
        if line.isEmpty then []
        else
          if keyCount normalizeErrorMessage (blockTexts log) (normalizeErrorMessage line) > 1 then
            line ++ countSuffix
              (keyCount normalizeErrorMessage (blockTexts log) (normalizeErrorMessage line))
          else line)) := by
  unfold deduplicateLog
  congr 1
  refine List.map_congr_left ?_
  intro line hline
  by_cases he : line.isEmpty
  · simp [he]
  · have he' : (!line.isEmpty) = true := by simp [he]
    have hmem : line ∈ (processedLines1 log).filter (fun l => !l.isEmpty) :=
      List.mem_filter.2 ⟨hline, he'⟩
    rw [(finalState_spec log).2, (finalState_spec log).1] at hmem
    obtain ⟨-, hget⟩ := rep_first normalizeErrorMessage (blockTexts log) hmem
    rw [(finalState_spec log).1, hget]

end Part001

/-! ## Splitting and joining on newlines -/

theorem splitOnNl_cons_nl (cs : Str) : splitOnNl (nlc :: cs) = [] :: splitOnNl cs := by
  simp [splitOnNl]

theorem splitOnNl_cons_eq {c : Char} {cs t : Str} {ts : List Str} (h : ¬ c = nlc)
    (ht : splitOnNl cs = t :: ts) : splitOnNl (c :: cs) = (c :: t) :: ts := by
  simp [splitOnNl, h, ht]

theorem splitOnNl_dest (cs : Str) : ∃ t ts, splitOnNl cs = t :: ts := by
  cases hs : splitOnNl cs with
  | nil => exact absurd hs (splitOnNl_ne_nil cs)
  | cons t ts => exact ⟨t, ts, rfl⟩

theorem joinSep_cons_of_ne {α : Type} {sep : List α} {L : List (List α)} (h : L ≠ [])
    (y : List α) : joinSep sep (y :: L) = y ++ sep ++ joinSep sep L := by
  cases L with
  | nil => exact absurd rfl h
  | cons z r => rfl

theorem joinSep_splitOnNl (l : Str) : joinSep [nlc] (splitOnNl l) = l := by
  induction l with
  | nil => rfl
  | cons c cs ih =>
    by_cases h : c = nlc
    · subst h
      rw [splitOnNl_cons_nl, joinSep_cons_of_ne (splitOnNl_ne_nil cs), ih]
      simp
    · obtain ⟨t, ts, ht⟩ := splitOnNl_dest cs
      rw [splitOnNl_cons_eq h ht]
      cases ts with
      | nil =>
        rw [ht] at ih
        simpa [joinSep] using ih
      | cons u us =>
        rw [ht] at ih
        have e2 : joinSep [nlc] (t :: u :: us) = t ++ [nlc] ++ joinSep [nlc] (u :: us) := rfl
        rw [e2] at ih
        have e1 : joinSep [nlc] ((c :: t) :: u :: us) =
            (c :: t) ++ [nlc] ++ joinSep [nlc] (u :: us) := rfl
        rw [e1]
        simp only [List.cons_append, List.append_assoc] at ih ⊢
        rw [ih]

theorem splitOnNl_append_nl (a b : Str) :
    splitOnNl (a ++ nlc :: b) = splitOnNl a ++ splitOnNl b := by
  induction a with
  | nil => simp [splitOnNl_cons_nl, splitOnNl]
  | cons c a ih =>
    by_cases h : c = nlc
    · subst h
      show splitOnNl (nlc :: (a ++ nlc :: b)) = _
      rw [splitOnNl_cons_nl, splitOnNl_cons_nl, ih]
      rfl
    · obtain ⟨t, ts, ht⟩ := splitOnNl_dest a
      have hab : splitOnNl (a ++ nlc :: b) = t :: (ts ++ splitOnNl b) := by
        rw [ih, ht]
        rfl
      show splitOnNl (c :: (a ++ nlc :: b)) = _
      rw [splitOnNl_cons_eq h hab, splitOnNl_cons_eq h ht]
      rfl

theorem splitOnNl_pure {a : Str} (h : nlc ∉ a) : splitOnNl a = [a] := by
  induction a with
  | nil => rfl
  | cons c cs ih =>
    have hc : ¬ c = nlc := fun hh => h (hh ▸ List.mem_cons_self c cs)
    have hcs : nlc ∉ cs := fun hh => h (List.mem_cons_of_mem c hh)
    rw [splitOnNl_cons_eq hc (ih hcs)]

theorem splitOnNl_no_nl : ∀ (l : Str), ∀ s ∈ splitOnNl l, nlc ∉ s := by
  intro l
  induction l with
  | nil =>
    intro s hs
    simp [splitOnNl] at hs
    simp [hs]
  | cons c cs ih =>
    intro s hs
    by_cases h : c = nlc
    · subst h
      rw [splitOnNl_cons_nl] at hs
      rcases List.mem_cons.1 hs with h1 | h1
      · simp [h1]
      · exact ih s h1
    · obtain ⟨t, ts, ht⟩ := splitOnNl_dest cs
      rw [splitOnNl_cons_eq h ht] at hs
      rcases List.mem_cons.1 hs with h1 | h1
      · subst h1
        intro hmem
        rcases List.mem_cons.1 hmem with h2 | h2
        · exact h h2.symm
        · exact ih t (ht ▸ List.mem_cons_self t ts) h2
      · exact ih s (ht ▸ List.mem_cons_of_mem t h1)

theorem splitOnNl_joinSep_nl : ∀ (L : List Str), L ≠ [] → (∀ s ∈ L, nlc ∉ s) →
    splitOnNl (joinSep [nlc] L) = L
  | [], hne, _ => absurd rfl hne
  | [s], _, h => by
    simpa [joinSep] using splitOnNl_pure (h s (List.mem_singleton.2 rfl))
  | s :: s' :: r, _, h => by
    have hrec := splitOnNl_joinSep_nl (s' :: r) (by simp)
      (fun x hx => h x (List.mem_cons_of_mem s hx))
    rw [joinSep_cons_of_ne (by simp)]
    have e1 : s ++ [nlc] ++ joinSep [nlc] (s' :: r) = s ++ nlc :: joinSep [nlc] (s' :: r) := by
      simp
    rw [e1, splitOnNl_append_nl, hrec, splitOnNl_pure (h s (List.mem_cons_self s _))]
    simp

theorem splitOnNl_joinSep_nlnl : ∀ (F : List Str), F ≠ [] →
    splitOnNl (joinSep [nlc, nlc] F) = joinSep [[]] (F.map splitOnNl)
  | [], hne => absurd rfl hne
  | [s], _ => by simp [joinSep]
  | s :: s' :: r, _ => by
    have hrec := splitOnNl_joinSep_nlnl (s' :: r) (by simp)
    rw [joinSep_cons_of_ne (by simp)]
    have e1 : s ++ [nlc, nlc] ++ joinSep [nlc, nlc] (s' :: r) =
        s ++ nlc :: (nlc :: joinSep [nlc, nlc] (s' :: r)) := by simp
    rw [e1, splitOnNl_append_nl, splitOnNl_cons_nl, hrec]
    have e3 : joinSep [[]] (List.map splitOnNl (s :: s' :: r)) =
        splitOnNl s ++ [[]] ++ joinSep [[]] (List.map splitOnNl (s' :: r)) := by
      rw [List.map_cons, List.map_cons]
      rfl
    rw [e3]
    simp

theorem splitOnNl_join_concat_sfx : ∀ (bs : List Str) (x sfx : Str),
    (∀ y ∈ bs, nlc ∉ y) → nlc ∉ x → nlc ∉ sfx →
    splitOnNl (joinSep [nlc] (bs ++ [x]) ++ sfx) = bs ++ [x ++ sfx]
  | [], x, sfx, _, hx, hs => by
    have hxs : nlc ∉ x ++ sfx := by
      intro h
      rcases List.mem_append.1 h with h1 | h1
      · exact hx h1
      · exact hs h1
    simpa [joinSep] using splitOnNl_pure hxs
  | y :: bs, x, sfx, hb, hx, hs => by
    have hrec := splitOnNl_join_concat_sfx bs x sfx
      (fun z hz => hb z (List.mem_cons_of_mem y hz)) hx hs
    rw [show (y :: bs) ++ [x] = y :: (bs ++ [x]) by rfl,
      joinSep_cons_of_ne (by simp)]
    have e1 : y ++ [nlc] ++ joinSep [nlc] (bs ++ [x]) ++ sfx =
        y ++ nlc :: (joinSep [nlc] (bs ++ [x]) ++ sfx) := by simp
    rw [e1, splitOnNl_append_nl, hrec, splitOnNl_pure (hb y (List.mem_cons_self y _))]
    simp

/-! ## Block segmentation lemmas -/

theorem toBlocksAux_nil_eq (cur : List Str) :
    toBlocksAux cur [] = if cur.isEmpty then [] else [cur] := rfl

theorem toBlocksAux_cons_nb (cur : List Str) {line : Str} (rest : List Str)
    (h : (trimC line).isEmpty = false) :
    toBlocksAux cur (line :: rest) = toBlocksAux (cur ++ [line]) rest := by
  show (if (trimC line).isEmpty then
      (if cur.isEmpty then toBlocksAux [] rest else cur :: toBlocksAux [] rest)
    else toBlocksAux (cur ++ [line]) rest) = _
  rw [h]
  simp

theorem toBlocksAux_cons_blank (cur : List Str) {line : Str} (rest : List Str)
    (h : (trimC line).isEmpty = true) :
    toBlocksAux cur (line :: rest) =
      if cur.isEmpty then toBlocksAux [] rest else cur :: toBlocksAux [] rest := by
  show (if (trimC line).isEmpty then
      (if cur.isEmpty then toBlocksAux [] rest else cur :: toBlocksAux [] rest)
    else toBlocksAux (cur ++ [line]) rest) = _
  rw [h]
  simp

theorem toBlocksAux_acc : ∀ (c : List Str) (cur rest : List Str),
    (∀ x ∈ c, (trimC x).isEmpty = false) →
    toBlocksAux cur (c ++ rest) = toBlocksAux (cur ++ c) rest
  | [], cur, rest, _ => by simp
  | y :: c, cur, rest, h => by
    have hy : (trimC y).isEmpty = false := h y (List.mem_cons_self y c)
    have hrec := toBlocksAux_acc c (cur ++ [y]) rest
      (fun x hx => h x (List.mem_cons_of_mem y hx))
    show toBlocksAux cur (y :: (c ++ rest)) = _
    rw [toBlocksAux_cons_nb cur (c ++ rest) hy, hrec]
    simp

theorem toBlocksAux_blank_sep (cur rest : List Str) (hcur : cur ≠ []) :
    toBlocksAux cur ([] :: rest) = cur :: toBlocksAux [] rest := by
  rw [toBlocksAux_cons_blank cur rest (by simp [trimC_nil])]
  simp [List.isEmpty_iff, hcur]

theorem toBlocks_chunks : ∀ (chunks : List (List Str)),
    (∀ c ∈ chunks, c ≠ []) → (∀ c ∈ chunks, ∀ x ∈ c, (trimC x).isEmpty = false) →
    toBlocksAux [] (joinSep [[]] chunks) = chunks
  | [], _, _ => rfl
  | [c], h1, h2 => by
    have hacc := toBlocksAux_acc c [] [] (h2 c (List.mem_singleton.2 rfl))
    simp only [List.append_nil, List.nil_append] at hacc
    show toBlocksAux [] c = [c]
    rw [hacc, toBlocksAux_nil_eq]
    simp [List.isEmpty_iff, h1 c (List.mem_singleton.2 rfl)]
  | c :: c' :: r, h1, h2 => by
    have hrec := toBlocks_chunks (c' :: r) (fun z hz => h1 z (List.mem_cons_of_mem c hz))
      (fun z hz => h2 z (List.mem_cons_of_mem c hz))
    rw [joinSep_cons_of_ne (by simp)]
    have e1 : c ++ [[]] ++ joinSep [[]] (c' :: r) = c ++ ([] :: joinSep [[]] (c' :: r)) := by
      simp
    rw [e1, toBlocksAux_acc c [] _ (h2 c (List.mem_cons_self c _)), List.nil_append,
      toBlocksAux_blank_sep _ _ (h1 c (List.mem_cons_self c _)), hrec]

theorem toBlocksAux_wf : ∀ (lines cur : List Str),
    (∀ x ∈ cur, (trimC x).isEmpty = false) →
    ∀ b ∈ toBlocksAux cur lines, b ≠ [] ∧ ∀ x ∈ b, (trimC x).isEmpty = false
  | [], cur, hcur => by
    intro b hb
    rw [toBlocksAux_nil_eq] at hb
    by_cases hc : cur.isEmpty
    · rw [if_pos hc] at hb
      simp at hb
    · rw [if_neg hc] at hb
      have hb' : b = cur := List.mem_singleton.1 hb
      subst hb'
      exact ⟨by simpa [List.isEmpty_iff] using hc, hcur⟩
  | l :: rest, cur, hcur => by
    intro b hb
    by_cases hl : (trimC l).isEmpty
    · rw [toBlocksAux_cons_blank cur rest hl] at hb
      by_cases hc : cur.isEmpty
      · rw [if_pos hc] at hb
        exact toBlocksAux_wf rest [] (by simp) b hb
      · rw [if_neg hc] at hb
        rcases List.mem_cons.1 hb with h1 | h1
        · subst h1
          exact ⟨by simpa [List.isEmpty_iff] using hc, hcur⟩
        · exact toBlocksAux_wf rest [] (by simp) b h1
    · have hl' : (trimC l).isEmpty = false := by simpa using hl
      rw [toBlocksAux_cons_nb cur rest hl'] at hb
      have hcur2 : ∀ x ∈ cur ++ [l], (trimC x).isEmpty = false := by
        intro x hx
        rcases List.mem_append.1 hx with h1 | h1
        · exact hcur x h1
        · rw [List.mem_singleton.1 h1]
          exact hl'
      exact toBlocksAux_wf rest (cur ++ [l]) hcur2 b hb

theorem toBlocksAux_all_blank : ∀ (lines : List Str),
    (∀ l ∈ lines, (trimC l).isEmpty = true) → toBlocksAux [] lines = []
  | [], _ => rfl
  | l :: rest, h => by
    rw [toBlocksAux_cons_blank [] rest (h l (List.mem_cons_self l rest))]
    simp only [List.isEmpty_nil, if_true]
    exact toBlocksAux_all_blank rest (fun x hx => h x (List.mem_cons_of_mem l hx))

theorem toBlocksAux_sublines : ∀ (lines cur : List Str),
    ∀ b ∈ toBlocksAux cur lines, ∀ x ∈ b, x ∈ cur ∨ x ∈ lines
  | [], cur => by
    intro b hb x hx
    rw [toBlocksAux_nil_eq] at hb
    by_cases hc : cur.isEmpty
    · rw [if_pos hc] at hb
      simp at hb
    · rw [if_neg hc] at hb
      rw [List.mem_singleton.1 hb] at hx
      exact Or.inl hx
  | l :: rest, cur => by
    intro b hb x hx
    by_cases hl : (trimC l).isEmpty
    · rw [toBlocksAux_cons_blank cur rest hl] at hb
      have hsub : b ∈ toBlocksAux [] rest → x ∈ cur ∨ x ∈ l :: rest := by
        intro h1
        rcases toBlocksAux_sublines rest [] b h1 x hx with h2 | h2
        · simp at h2
        · exact Or.inr (List.mem_cons_of_mem l h2)
      by_cases hc : cur.isEmpty
      · rw [if_pos hc] at hb
        exact hsub hb
      · rw [if_neg hc] at hb
        rcases List.mem_cons.1 hb with h1 | h1
        · subst h1
          exact Or.inl hx
        · exact hsub h1
    · have hl' : (trimC l).isEmpty = false := by simpa using hl
      rw [toBlocksAux_cons_nb cur rest hl'] at hb
      rcases toBlocksAux_sublines rest (cur ++ [l]) b hb x hx with h2 | h2
      · rcases List.mem_append.1 h2 with h3 | h3
        · exact Or.inl h3
        · exact Or.inr (List.mem_cons.2 (Or.inl (List.mem_singleton.1 h3)))
      · exact Or.inr (List.mem_cons_of_mem l h2)

/-! ## Trim and digit-character lemmas -/

theorem mem_dropWhile_of_not {p : Char → Bool} : ∀ {l : Str} {c : Char}, c ∈ l → p c = false →
    c ∈ l.dropWhile p
  | a :: l, c, hc, hp => by
    by_cases ha : p a
    · rw [List.dropWhile_cons_of_pos ha]
      rcases List.mem_cons.1 hc with h1 | h1
      · subst h1
        rw [hp] at ha
        exact absurd ha (by simp)
      · exact mem_dropWhile_of_not h1 hp
    · rw [List.dropWhile_cons_of_neg ha]
      exact hc

theorem trimC_ne_nil {l : Str} {c : Char} (hc : c ∈ l) (hs : isSpaceC c = false) :
    trimC l ≠ [] := by
  have h1 : c ∈ l.dropWhile isSpaceC := mem_dropWhile_of_not hc hs
  have h2 : c ∈ (l.dropWhile isSpaceC).reverse := List.mem_reverse.2 h1
  have h3 : c ∈ (l.dropWhile isSpaceC).reverse.dropWhile isSpaceC :=
    mem_dropWhile_of_not h2 hs
  have h4 : c ∈ trimC l := List.mem_reverse.2 h3
  exact List.ne_nil_of_mem h4

theorem natDigitsAux_chars : ∀ (f n : Nat), ∀ c ∈ natDigitsAux f n, ∃ d, d < 10 ∧ c = digitChar d
  | 0, n => by simp [natDigitsAux]
  | f + 1, n => by
    intro c hc
    by_cases h : n < 10
    · rw [show natDigitsAux (f + 1) n = [digitChar n] by simp [natDigitsAux, h]] at hc
      exact ⟨n, h, List.mem_singleton.1 hc⟩
    · rw [show natDigitsAux (f + 1) n = natDigitsAux f (n / 10) ++ [digitChar (n % 10)] by
        simp [natDigitsAux, h]] at hc
      rcases List.mem_append.1 hc with h1 | h1
      · exact natDigitsAux_chars f (n / 10) c h1
      · exact ⟨n % 10, Nat.mod_lt n (by omega), List.mem_singleton.1 h1⟩

theorem digitChar_not_nl {d : Nat} (hd : d < 10) : digitChar d ≠ nlc := by
  interval_cases d <;> decide

theorem countSuffix_no_nl (n : Nat) : nlc ∉ countSuffix n := by
  intro h
  unfold countSuffix at h
  rcases List.mem_append.1 h with h1 | h1
  · rcases List.mem_append.1 h1 with h2 | h2
    · simp [nlc] at h2
    · obtain ⟨d, hd, hc⟩ := natDigitsAux_chars (n + 1) n nlc h2
      exact digitChar_not_nl hd hc.symm
  · simp [nlc] at h1

theorem countSuffix_bracket (n : Nat) : 'x' ∈ countSuffix n := by
  unfold countSuffix
  simp

/-! ## Scanner fuel irrelevance -/

theorem scanF_succ (m : Bool → Str → Option Str) (aw : Bool) (repl : Str) (f : Nat) (pw : Bool)
    (c : Char) (cs : Str) :
    scanF m aw repl (f + 1) pw (c :: cs) =
      match m pw (c :: cs) with
      | some rest => repl ++ scanF m aw repl f aw rest
      | none => c :: scanF m aw repl f (isWordC c) cs := rfl

theorem scanF_nil (m : Bool → Str → Option Str) (aw : Bool) (repl : Str) (f : Nat) (pw : Bool) :
    scanF m aw repl f pw [] = [] := by
  cases f <;> rfl

theorem scanF_congr {m : Bool → Str → Option Str}
    (hm : ∀ pw l r, m pw l = some r → r.length < l.length) (aw : Bool) (repl : Str) :
    ∀ (f : Nat) (pw : Bool) (l : Str), l.length ≤ f →
      scanF m aw repl f pw l = scanF m aw repl l.length pw l := by
  intro f
  induction f using Nat.strong_induction_on with
  | _ f ih =>
    intro pw l hl
    cases l with
    | nil => rw [scanF_nil, scanF_nil]
    | cons c cs =>
      cases f with
      | zero => simp at hl
      | succ f =>
        have hcs : cs.length + 1 = (c :: cs).length := rfl
        rw [scanF_succ, show (c :: cs).length = cs.length + 1 from rfl, scanF_succ]
        cases hmm : m pw (c :: cs) with
        | some rest =>
          have hlen : rest.length < cs.length + 1 := hm pw (c :: cs) rest hmm
          have hle0 : cs.length + 1 ≤ f + 1 := hl
          have hle1 : rest.length ≤ f := by omega
          have e1 := ih f (by omega) aw rest hle1
          have e2 := ih cs.length (by omega) aw rest (by omega)
          show repl ++ scanF m aw repl f aw rest = repl ++ scanF m aw repl cs.length aw rest
          rw [e1, e2]
        | none =>
          have hle0 : cs.length + 1 ≤ f + 1 := hl
          have hle : cs.length ≤ f := by omega
          show c :: scanF m aw repl f (isWordC c) cs =
            c :: scanF m aw repl cs.length (isWordC c) cs
          rw [ih f (by omega) (isWordC c) cs hle]

/-! ## Consumption lemmas for the ISO-timestamp matcher -/

theorem takeDigits_len : ∀ (n : Nat) (l r : Str), takeDigits n l = some r → r.length + n = l.length
  | 0, l, r, h => by
    have : l = r := by simpa [takeDigits] using h
    simp [this]
  | n + 1, [], r, h => by simp [takeDigits] at h
  | n + 1, c :: l, r, h => by
    by_cases hc : isDigitC c
    · rw [show takeDigits (n + 1) (c :: l) = takeDigits n l by simp [takeDigits, hc]] at h
      have := takeDigits_len n l r h
      simp only [List.length_cons]
      omega
    · simp [takeDigits, hc] at h

theorem lit_len {c : Char} : ∀ {l r : Str}, lit c l = some r → r.length + 1 = l.length := by
  intro l r h
  cases l with
  | nil => simp [lit] at h
  | cons x xs =>
    by_cases hx : x = c
    · have : xs = r := by simpa [lit, hx] using h
      simp [← this]
    · simp [lit, hx] at h

theorem sepST_len : ∀ {l r : Str}, sepST l = some r → r.length + 1 = l.length := by
  intro l r h
  cases l with
  | nil => simp [sepST] at h
  | cons x xs =>
    by_cases hx : x = ' ' || x = 'T'
    · have : xs = r := by simpa [sepST, hx] using h
      simp [← this]
    · simp [sepST, hx] at h

theorem fracSkip_len (l : Str) : (fracSkip l).length ≤ l.length := by
  cases l with
  | nil => simp [fracSkip]
  | cons c r =>
    by_cases hc : c = '.'
    · cases r with
      | nil => simp [fracSkip, hc, dropWhile1]
      | cons d r2 =>
        by_cases hd : isDigitC d
        · have he : fracSkip (c :: d :: r2) = r2.dropWhile isDigitC := by
            simp [fracSkip, hc, dropWhile1, hd]
          have hsub : List.Sublist (r2.dropWhile isDigitC) r2 :=
            List.dropWhile_sublist isDigitC
          have hle := hsub.length_le
          rw [he]
          simp only [List.length_cons]
          omega
        · have he : fracSkip (c :: d :: r2) = c :: d :: r2 := by
            simp [fracSkip, hc, dropWhile1, hd]
          rw [he]
    · have he : fracSkip (c :: r) = c :: r := by simp [fracSkip, hc]
      rw [he]

theorem matchISO_consume : ∀ (pw : Bool) (l r : Str), matchISO pw l = some r →
    r.length < l.length := by
  intro pw l r h
  simp only [matchISO, Option.bind_eq_some, Option.some.injEq] at h
  obtain ⟨r1, h1, r2, h2, r3, h3, r4, h4, r5, h5, r6, h6, r7, h7, r8, h8, r9, h9, r10, h10,
    r11, h11, hr⟩ := h
  have e1 := takeDigits_len 4 l r1 h1
  have e2 := lit_len h2
  have e3 := takeDigits_len 2 r2 r3 h3
  have e4 := lit_len h4
  have e5 := takeDigits_len 2 r4 r5 h5
  have e6 := sepST_len h6
  have e7 := takeDigits_len 2 r6 r7 h7
  have e8 := lit_len h8
  have e9 := takeDigits_len 2 r8 r9 h9
  have e10 := lit_len h10
  have e11 := takeDigits_len 2 r10 r11 h11
  have e12 : r.length ≤ r11.length := by
    rw [← hr]
    exact fracSkip_len r11
  omega

/-! ## Collapse of ISO timestamps under the part_002 normalizer -/

theorem fracSkip_id {l : Str} (h : fracStart l = false) : fracSkip l = l := by
  cases l with
  | nil => rfl
  | cons c r =>
    by_cases hc : c = '.'
    · cases r with
      | nil => simp [fracSkip, hc, dropWhile1]
      | cons d r2 =>
        have hd : isDigitC d = false := by
          simp [fracStart, hc] at h
          exact h
        simp [fracSkip, hc, dropWhile1, hd]
    · simp [fracSkip, hc]

theorem matchISO_mk (pw : Bool) (y1 y2 y3 y4 mo1 mo2 d1 d2 sep h1c h2c mi1 mi2 se1 se2 : Char)
    (post : Str)
    (hy1 : isDigitC y1 = true) (hy2 : isDigitC y2 = true) (hy3 : isDigitC y3 = true)
    (hy4 : isDigitC y4 = true) (hmo1 : isDigitC mo1 = true) (hmo2 : isDigitC mo2 = true)
    (hd1 : isDigitC d1 = true) (hd2 : isDigitC d2 = true) (hh1 : isDigitC h1c = true)
    (hh2 : isDigitC h2c = true) (hmi1 : isDigitC mi1 = true) (hmi2 : isDigitC mi2 = true)
    (hs1 : isDigitC se1 = true) (hs2 : isDigitC se2 = true)
    (hsep : sep = ' ' ∨ sep = 'T') (hfrac : fracStart post = false) :
    matchISO pw (mkISO y1 y2 y3 y4 mo1 mo2 d1 d2 sep h1c h2c mi1 mi2 se1 se2 ++ post) =
      some post := by
  rcases hsep with hsep | hsep <;>
    subst hsep <;>
    simp [mkISO, matchISO, takeDigits, lit, sepST, hy1, hy2, hy3, hy4, hmo1, hmo2, hd1, hd2,
      hh1, hh2, hmi1, hmi2, hs1, hs2, fracSkip_id hfrac]

theorem isoScanAll_head (y1 y2 y3 y4 mo1 mo2 d1 d2 sep h1c h2c mi1 mi2 se1 se2 : Char)
    (post : Str)
    (hy1 : isDigitC y1 = true) (hy2 : isDigitC y2 = true) (hy3 : isDigitC y3 = true)
    (hy4 : isDigitC y4 = true) (hmo1 : isDigitC mo1 = true) (hmo2 : isDigitC mo2 = true)
    (hd1 : isDigitC d1 = true) (hd2 : isDigitC d2 = true) (hh1 : isDigitC h1c = true)
    (hh2 : isDigitC h2c = true) (hmi1 : isDigitC mi1 = true) (hmi2 : isDigitC mi2 = true)
    (hs1 : isDigitC se1 = true) (hs2 : isDigitC se2 = true)
    (hsep : sep = ' ' ∨ sep = 'T') (hfrac : fracStart post = false) :
    scanAll matchISO false tTIME
        (mkISO y1 y2 y3 y4 mo1 mo2 d1 d2 sep h1c h2c mi1 mi2 se1 se2 ++ post) =
      tTIME ++ scanAll matchISO false tTIME post := by
  have hmatch := matchISO_mk false y1 y2 y3 y4 mo1 mo2 d1 d2 sep h1c h2c mi1 mi2 se1 se2 post
    hy1 hy2 hy3 hy4 hmo1 hmo2 hd1 hd2 hh1 hh2 hmi1 hmi2 hs1 hs2 hsep hfrac
  have hlen : (mkISO y1 y2 y3 y4 mo1 mo2 d1 d2 sep h1c h2c mi1 mi2 se1 se2 ++ post).length =
      (18 + post.length) + 1 := by
    simp [mkISO]
    omega
  unfold scanAll
  rw [hlen]
  simp only [mkISO, List.cons_append, List.nil_append] at hmatch ⊢
  rw [scanF_succ]
  rw [hmatch]
  show tTIME ++ scanF matchISO false tTIME (18 + post.length) false post = _
  rw [scanF_congr matchISO_consume false tTIME (18 + post.length) false post (by omega)]

/-! ## Character-class facts for the normalizer collapse families -/

theorem isWordC_of_digit {c : Char} (h : isDigitC c = true) : isWordC c = true := by
  simp [isWordC, h]

theorem isHexC_of_digit {c : Char} (h : isDigitC c = true) : isHexC c = true := by
  simp [isHexC, h]

theorem isWordC_of_hex {c : Char} (h : isHexC c = true) : isWordC c = true := by
  have h2 : (isDigitC c = true ∨ (65 ≤ c.toNat ∧ c.toNat ≤ 70)) ∨
      (97 ≤ c.toNat ∧ c.toNat ≤ 102) := by
    simpa [isHexC] using h
  simp only [isWordC, Bool.or_eq_true, Bool.and_eq_true, decide_eq_true_eq, beq_iff_eq]
  rcases h2 with (hd | hr) | hr
  · exact Or.inl (Or.inl (Or.inl hd))
  · exact Or.inl (Or.inl (Or.inr ⟨hr.1, by omega⟩))
  · exact Or.inl (Or.inr ⟨hr.1, by omega⟩)

theorem not_digit_of_not_word {c : Char} (h : isWordC c = false) : isDigitC c = false := by
  cases hd : isDigitC c
  · rfl
  · rw [isWordC_of_digit hd] at h
    exact Bool.noConfusion h

theorem not_hex_of_not_word {c : Char} (h : isWordC c = false) : isHexC c = false := by
  cases hd : isHexC c
  · rfl
  · rw [isWordC_of_hex hd] at h
    exact Bool.noConfusion h

theorem isSpaceC_false_of_digit {c : Char} (h : isDigitC c = true) : isSpaceC c = false := by
  cases hsp : isSpaceC c
  · rfl
  · exfalso
    have hd : 48 ≤ c.toNat ∧ c.toNat ≤ 57 := by simpa [isDigitC] using h
    have hs2 : ((((c = ' ' ∨ c = '\t') ∨ c = '\n') ∨ c = '\r') ∨ c = Char.ofNat 11) ∨
        c = Char.ofNat 12 := by
      simpa [isSpaceC] using hsp
    rcases hs2 with ((((rfl | rfl) | rfl) | rfl) | rfl) | rfl <;> revert hd <;> decide

theorem ne_lbr_of_word {c : Char} (h : isWordC c = true) : c ≠ '[' := by
  intro he
  subst he
  exact absurd h (by decide)

theorem ne_dash_of_hex {c : Char} (h : isHexC c = true) : c ≠ '-' := by
  intro he
  subst he
  exact absurd h (by decide)

theorem ne_x_of_digit {c : Char} (h : isDigitC c = true) : c ≠ 'x' := by
  intro he
  subst he
  exact absurd h (by decide)

theorem ne_x_of_not_word {c : Char} (h : isWordC c = false) : c ≠ 'x' := by
  intro he
  subst he
  exact absurd h (by decide)

/-! ## Length consumption for the hex and digit-run matchers -/

theorem dropWhile1_len {p : Char → Bool} : ∀ {l r : Str}, dropWhile1 p l = some r →
    r.length < l.length := by
  intro l r h
  cases l with
  | nil => simp [dropWhile1] at h
  | cons x xs =>
    by_cases hx : p x
    · have he : List.dropWhile p xs = r := by simpa [dropWhile1, hx] using h
      have hsub : List.Sublist (List.dropWhile p xs) xs := List.dropWhile_sublist p
      have hle := hsub.length_le
      rw [← he]
      simp only [List.length_cons]
      omega
    · simp [dropWhile1, hx] at h

theorem matchHex_consume : ∀ (pw : Bool) (l r : Str), matchHex pw l = some r →
    r.length < l.length := by
  intro pw l r h
  cases pw with
  | true => simp [matchHex] at h
  | false =>
    rw [show matchHex false l = ((lit '0' l).bind fun r1 => (lit 'x' r1).bind fun r2 =>
        (dropWhile1 isHexC r2).bind fun r3 =>
        if boundaryAfter r3 then some r3 else none) from rfl] at h
    simp only [Option.bind_eq_some] at h
    obtain ⟨r1, h1, r2, h2, r3, h3, h4⟩ := h
    have e1 := lit_len h1
    have e2 := lit_len h2
    have e3 := dropWhile1_len h3
    split_ifs at h4 with hbnd
    · injection h4 with he
      subst he
      omega

theorem matchNum4_consume : ∀ (pw : Bool) (l r : Str), matchNum4 pw l = some r →
    r.length < l.length := by
  intro pw l r h
  cases pw with
  | true => simp [matchNum4] at h
  | false =>
    rw [show matchNum4 false l = ((takeDigits 4 l).bind fun r1 =>
        if boundaryAfter (List.dropWhile isDigitC r1) then
          some (List.dropWhile isDigitC r1) else none) from rfl] at h
    simp only [Option.bind_eq_some] at h
    obtain ⟨r1, h1, h2⟩ := h
    have e1 := takeDigits_len 4 l r1 h1
    have hsub : List.Sublist (List.dropWhile isDigitC r1) r1 := List.dropWhile_sublist isDigitC
    have hle := hsub.length_le
    split_ifs at h2 with hbnd
    · injection h2 with he
      subst he
      omega

/-! ## Failure of the matchers away from their tokens -/

theorem matchISO_fail_nondigit (pw : Bool) (c : Char) (l : Str) (h : isDigitC c = false) :
    matchISO pw (c :: l) = none := by
  simp [matchISO, takeDigits, h]

theorem matchISO_fail_dig1 (pw : Bool) (a b : Char) (l : Str)
    (ha : isDigitC a = true) (hb : isDigitC b = false) :
    matchISO pw (a :: b :: l) = none := by
  simp [matchISO, takeDigits, ha, hb]

theorem matchISO_fail_dig2 (pw : Bool) (a b c : Char) (l : Str)
    (ha : isDigitC a = true) (hb : isDigitC b = true) (hc : isDigitC c = false) :
    matchISO pw (a :: b :: c :: l) = none := by
  simp [matchISO, takeDigits, ha, hb, hc]

theorem matchSyslog_fail (pw : Bool) (c : Char) (l : Str) (h : c ≠ '[') :
    matchSyslog pw (c :: l) = none := by
  simp [matchSyslog, lit, h]

theorem matchISO_fail_hexrun (pw : Bool) :
    ∀ (t R : Str), (∀ c ∈ t, isHexC c = true) → boundaryAfter R = true →
      headNotDash R = true → t ≠ [] → matchISO pw (t ++ R) = none
  | [], _, _, _, _, hne => absurd rfl hne
  | [a], R, hx, hbd, _, _ => by
    by_cases ha : isDigitC a
    · cases R with
      | nil => simp [matchISO, takeDigits, ha]
      | cons p ps =>
        have hp : isDigitC p = false :=
          not_digit_of_not_word (by simpa [boundaryAfter] using hbd)
        simp [matchISO, takeDigits, ha, hp]
    · simp [matchISO, takeDigits, ha]
  | [a, b], R, hx, hbd, _, _ => by
    by_cases ha : isDigitC a
    · by_cases hb2 : isDigitC b
      · cases R with
        | nil => simp [matchISO, takeDigits, ha, hb2]
        | cons p ps =>
          have hp : isDigitC p = false :=
            not_digit_of_not_word (by simpa [boundaryAfter] using hbd)
          simp [matchISO, takeDigits, ha, hb2, hp]
      · simp [matchISO, takeDigits, ha, hb2]
    · simp [matchISO, takeDigits, ha]
  | [a, b, c], R, hx, hbd, _, _ => by
    by_cases ha : isDigitC a
    · by_cases hb2 : isDigitC b
      · by_cases hc2 : isDigitC c
        · cases R with
          | nil => simp [matchISO, takeDigits, ha, hb2, hc2]
          | cons p ps =>
            have hp : isDigitC p = false :=
              not_digit_of_not_word (by simpa [boundaryAfter] using hbd)
            simp [matchISO, takeDigits, ha, hb2, hc2, hp]
        · simp [matchISO, takeDigits, ha, hb2, hc2]
      · simp [matchISO, takeDigits, ha, hb2]
    · simp [matchISO, takeDigits, ha]
  | [a, b, c, d], R, hx, hbd, hnd, _ => by
    by_cases ha : isDigitC a
    · by_cases hb2 : isDigitC b
      · by_cases hc2 : isDigitC c
        · by_cases hd2 : isDigitC d
          · cases R with
            | nil => simp [matchISO, takeDigits, lit, ha, hb2, hc2, hd2]
            | cons p ps =>
              have hp : p ≠ '-' := by simpa [headNotDash] using hnd
              simp [matchISO, takeDigits, lit, ha, hb2, hc2, hd2, hp]
          · simp [matchISO, takeDigits, ha, hb2, hc2, hd2]
        · simp [matchISO, takeDigits, ha, hb2, hc2]
      · simp [matchISO, takeDigits, ha, hb2]
    · simp [matchISO, takeDigits, ha]
  | a :: b :: c :: d :: e :: t2, R, hx, _, _, _ => by
    have hea : e ≠ '-' := ne_dash_of_hex (hx e (by simp))
    by_cases ha : isDigitC a
    · by_cases hb2 : isDigitC b
      · by_cases hc2 : isDigitC c
        · by_cases hd2 : isDigitC d
          · simp [matchISO, takeDigits, lit, ha, hb2, hc2, hd2, hea]
          · simp [matchISO, takeDigits, ha, hb2, hc2, hd2]
        · simp [matchISO, takeDigits, ha, hb2, hc2]
      · simp [matchISO, takeDigits, ha, hb2]
    · simp [matchISO, takeDigits, ha]

theorem matchHex_fail_dig (pw : Bool) (c : Char) (t R : Str) (hc : isDigitC c = true)
    (ht : ∀ d ∈ t, isDigitC d = true) (hb : boundaryAfter R = true) :
    matchHex pw ((c :: t) ++ R) = none := by
  cases pw with
  | true => rfl
  | false =>
    by_cases hc0 : c = '0'
    · subst hc0
      cases t with
      | nil =>
        cases R with
        | nil => simp [matchHex, lit]
        | cons p ps =>
          have hpx : p ≠ 'x' := ne_x_of_not_word (by simpa [boundaryAfter] using hb)
          simp [matchHex, lit, hpx]
      | cons d t2 =>
        have hdx : d ≠ 'x' := ne_x_of_digit (ht d (List.mem_cons_self d t2))
        simp [matchHex, lit, hdx]
    · simp [matchHex, lit, hc0]

/-! ## Head matches for the syslog, hex and digit-run tokens -/

theorem matchSyslog_mk (pw : Bool) (w1 w2 w3 da1 da2 hh1 hh2 mm1 mm2 ss1 ss2 : Char) (R : Str)
    (hww1 : isWordC w1 = true) (hww2 : isWordC w2 = true) (hww3 : isWordC w3 = true)
    (hda1 : isDigitC da1 = true) (hda2 : isDigitC da2 = true)
    (hhh1 : isDigitC hh1 = true) (hhh2 : isDigitC hh2 = true)
    (hmm1 : isDigitC mm1 = true) (hmm2 : isDigitC mm2 = true)
    (hss1 : isDigitC ss1 = true) (hss2 : isDigitC ss2 = true) :
    matchSyslog pw (mkSyslog w1 w2 w3 da1 da2 hh1 hh2 mm1 mm2 ss1 ss2 ++ R) = some R := by
  have hsp : isSpaceC ' ' = true := by decide
  have hsd1 : isSpaceC da1 = false := isSpaceC_false_of_digit hda1
  have hsh1 : isSpaceC hh1 = false := isSpaceC_false_of_digit hhh1
  simp [mkSyslog, matchSyslog, lit, takeWord, takeDigits, dropWhile1, List.dropWhile,
    hww1, hww2, hww3, hda1, hda2, hhh1, hhh2, hmm1, hmm2, hss1, hss2, hsp, hsd1, hsh1]

theorem takeDigits_all : ∀ (n : Nat) (ds R : Str), n ≤ ds.length →
    (∀ c ∈ ds, isDigitC c = true) → takeDigits n (ds ++ R) = some (ds.drop n ++ R)
  | 0, ds, R, _, _ => rfl
  | n + 1, [], R, h, _ => by
    rw [List.length_nil] at h
    omega
  | n + 1, c :: ds, R, h, hd => by
    have hc := hd c (List.mem_cons_self c ds)
    show takeDigits (n + 1) (c :: (ds ++ R)) = some ((c :: ds).drop (n + 1) ++ R)
    rw [show takeDigits (n + 1) (c :: (ds ++ R)) = takeDigits n (ds ++ R) from by
      simp [takeDigits, hc]]
    rw [takeDigits_all n ds R (by simp only [List.length_cons] at h; omega)
      fun x hx => hd x (List.mem_cons_of_mem c hx)]
    rfl

theorem dropWhile_pass (p : Char → Bool) : ∀ (t R : Str), (∀ c ∈ t, p c = true) →
    (∀ (c : Char) (cs : Str), R = c :: cs → p c = false) →
    List.dropWhile p (t ++ R) = R
  | [], R, _, hR => by
    cases R with
    | nil => rfl
    | cons c cs => simp [List.dropWhile, hR c cs rfl]
  | c :: t, R, ht, hR => by
    have hc := ht c (List.mem_cons_self c t)
    show List.dropWhile p (c :: (t ++ R)) = R
    rw [show List.dropWhile p (c :: (t ++ R)) = List.dropWhile p (t ++ R) from by
      simp [List.dropWhile, hc]]
    exact dropWhile_pass p t R (fun x hx => ht x (List.mem_cons_of_mem c hx)) hR

theorem matchHex_mk (hs R : Str) (hx : ∀ c ∈ hs, isHexC c = true) (hne : hs ≠ [])
    (hb : boundaryAfter R = true) :
    matchHex false (('0' :: 'x' :: hs) ++ R) = some R := by
  cases hs with
  | nil => exact absurd rfl hne
  | cons c t =>
    have hc := hx c (List.mem_cons_self c t)
    have hdrop : List.dropWhile isHexC (t ++ R) = R :=
      dropWhile_pass isHexC t R (fun x hxm => hx x (List.mem_cons_of_mem c hxm))
        (fun x xs hR => by
          subst hR
          exact not_hex_of_not_word (by simpa [boundaryAfter] using hb))
    simp [matchHex, lit, dropWhile1, hc, hdrop, hb]

theorem matchNum4_mk (ds R : Str) (hd : ∀ c ∈ ds, isDigitC c = true) (hlen : 4 ≤ ds.length)
    (hb : boundaryAfter R = true) :
    matchNum4 false (ds ++ R) = some R := by
  have h4 : takeDigits 4 (ds ++ R) = some (ds.drop 4 ++ R) := takeDigits_all 4 ds R hlen hd
  have hdrop : List.dropWhile isDigitC (ds.drop 4 ++ R) = R :=
    dropWhile_pass isDigitC (ds.drop 4) R (fun c hc => hd c (List.mem_of_mem_drop hc))
      (fun c cs hR => by
        subst hR
        exact not_digit_of_not_word (by simpa [boundaryAfter] using hb))
  simp [matchNum4, h4, hdrop, hb]

/-! ## Stepping the scanners over unmatched token text -/

theorem scanF_step_len (m : Bool → Str → Option Str) (aw : Bool) (repl : Str) (pw : Bool)
    (c : Char) (cs : Str) (h : m pw (c :: cs) = none) :
    scanF m aw repl (c :: cs).length pw (c :: cs) =
      c :: scanF m aw repl cs.length (isWordC c) cs := by
  show scanF m aw repl (cs.length + 1) pw (c :: cs) = _
  rw [scanF_succ, h]

theorem scanF_skip (m : Bool → Str → Option Str) (aw : Bool) (repl : Str) :
    ∀ (tok R : Str) (pw : Bool),
      (∀ (pw2 : Bool) (c : Char) (t : Str), List.IsSuffix (c :: t) tok →
        m pw2 ((c :: t) ++ R) = none) →
      scanF m aw repl (tok ++ R).length pw (tok ++ R) =
        tok ++ scanF m aw repl R.length (List.foldl (fun _ c => isWordC c) pw tok) R
  | [], R, pw, _ => by simp
  | c :: tok, R, pw, h => by
    have h0 : m pw ((c :: tok) ++ R) = none := h pw c tok (List.suffix_refl (c :: tok))
    show scanF m aw repl ((tok ++ R).length + 1) pw (c :: (tok ++ R)) =
      c :: (tok ++ scanF m aw repl R.length
        (List.foldl (fun _ x => isWordC x) (isWordC c) tok) R)
    rw [scanF_succ]
    rw [show m pw (c :: (tok ++ R)) = none from h0]
    show c :: scanF m aw repl (tok ++ R).length (isWordC c) (tok ++ R) = _
    rw [scanF_skip m aw repl tok R (isWordC c)
      fun pw2 c2 t ht => h pw2 c2 t (List.IsSuffix.trans ht ⟨[c], rfl⟩)]

theorem scanAll_skip (m : Bool → Str → Option Str) (aw : Bool) (repl : Str) (tok R : Str)
    (h : ∀ (pw2 : Bool) (c : Char) (t : Str), List.IsSuffix (c :: t) tok →
      m pw2 ((c :: t) ++ R) = none) :
    scanAll m aw repl (tok ++ R) =
      tok ++ scanF m aw repl R.length (List.foldl (fun _ c => isWordC c) false tok) R :=
  scanF_skip m aw repl tok R false h

theorem scanAll_skip_head (m : Bool → Str → Option Str) (aw : Bool) (repl : Str) (tok R : Str)
    (h : ∀ (pw2 : Bool) (c : Char) (t : Str), c ∈ tok → m pw2 (c :: t) = none) :
    scanAll m aw repl (tok ++ R) =
      tok ++ scanF m aw repl R.length (List.foldl (fun _ c => isWordC c) false tok) R :=
  scanAll_skip m aw repl tok R fun pw2 c t ht =>
    h pw2 c (t ++ R) (ht.sublist.subset (List.mem_cons_self c t))

theorem foldl_word : ∀ (l : Str) (pw : Bool), l ≠ [] → (∀ c ∈ l, isWordC c = true) →
    List.foldl (fun _ c => isWordC c) pw l = true
  | [], _, hne, _ => absurd rfl hne
  | [c], _, _, h => by
    show isWordC c = true
    exact h c (List.mem_singleton_self c)
  | c :: d :: l, pw, _, h => by
    show List.foldl (fun _ x => isWordC x) (isWordC c) (d :: l) = true
    exact foldl_word (d :: l) (isWordC c) (by simp) fun x hx => h x (List.mem_cons_of_mem c hx)

/-! ## Word-boundary preservation through a scan whose replacement starts non-word -/

theorem boundaryAfter_scanF (m : Bool → Str → Option Str) (aw : Bool) (c0 : Char) (r0 : Str)
    (hc0 : isWordC c0 = false) (f : Nat) (pw : Bool) (l : Str) (hl : boundaryAfter l = true) :
    boundaryAfter (scanF m aw (c0 :: r0) f pw l) = true := by
  cases f with
  | zero => exact hl
  | succ f =>
    cases l with
    | nil =>
      rw [scanF_nil]
      rfl
    | cons c cs =>
      rw [scanF_succ]
      cases hm : m pw (c :: cs) with
      | some rest =>
        show (!isWordC c0) = true
        rw [hc0]
        rfl
      | none =>
        show (!isWordC c) = true
        rw [show isWordC c = false from by simpa [boundaryAfter] using hl]
        rfl

theorem boundaryAfter_scanF_tTIME (m : Bool → Str → Option Str) (aw : Bool) (f : Nat)
    (pw : Bool) (l : Str) (hl : boundaryAfter l = true) :
    boundaryAfter (scanF m aw tTIME f pw l) = true :=
  boundaryAfter_scanF m aw '<' (s2l "TIME>") (by decide) f pw l hl

theorem boundaryAfter_scanF_tADDR (m : Bool → Str → Option Str) (aw : Bool) (f : Nat)
    (pw : Bool) (l : Str) (hl : boundaryAfter l = true) :
    boundaryAfter (scanF m aw tADDR f pw l) = true :=
  boundaryAfter_scanF m aw '<' (s2l "ADDR>") (by decide) f pw l hl

/-! ## Head-position scans for the syslog, hex and digit-run tokens -/

theorem syslogScanAll_head (w1 w2 w3 da1 da2 hh1 hh2 mm1 mm2 ss1 ss2 : Char) (R : Str)
    (hww1 : isWordC w1 = true) (hww2 : isWordC w2 = true) (hww3 : isWordC w3 = true)
    (hda1 : isDigitC da1 = true) (hda2 : isDigitC da2 = true)
    (hhh1 : isDigitC hh1 = true) (hhh2 : isDigitC hh2 = true)
    (hmm1 : isDigitC mm1 = true) (hmm2 : isDigitC mm2 = true)
    (hss1 : isDigitC ss1 = true) (hss2 : isDigitC ss2 = true) :
    scanAll matchSyslog false tTIME (mkSyslog w1 w2 w3 da1 da2 hh1 hh2 mm1 mm2 ss1 ss2 ++ R) =
      tTIME ++ scanF matchSyslog false tTIME (16 + R.length) false R := by
  have hmatch := matchSyslog_mk false w1 w2 w3 da1 da2 hh1 hh2 mm1 mm2 ss1 ss2 R
    hww1 hww2 hww3 hda1 hda2 hhh1 hhh2 hmm1 hmm2 hss1 hss2
  have hlen : (mkSyslog w1 w2 w3 da1 da2 hh1 hh2 mm1 mm2 ss1 ss2 ++ R).length =
      (16 + R.length) + 1 := by
    simp [mkSyslog]
    omega
  unfold scanAll
  rw [hlen]
  simp only [mkSyslog, List.cons_append, List.nil_append] at hmatch ⊢
  rw [scanF_succ]
  rw [hmatch]

theorem hexScanAll_head (hs R : Str) (hx : ∀ c ∈ hs, isHexC c = true) (hne : hs ≠ [])
    (hb : boundaryAfter R = true) :
    scanAll matchHex true tADDR (('0' :: 'x' :: hs) ++ R) =
      tADDR ++ scanF matchHex true tADDR R.length true R := by
  have hm : matchHex false (('0' :: 'x' :: hs) ++ R) = some R := matchHex_mk hs R hx hne hb
  show scanF matchHex true tADDR ((('x' :: hs) ++ R).length + 1) false
      ('0' :: (('x' :: hs) ++ R)) = _
  rw [scanF_succ]
  rw [show matchHex false ('0' :: (('x' :: hs) ++ R)) = some R from hm]
  show tADDR ++ scanF matchHex true tADDR (('x' :: hs) ++ R).length true R = _
  rw [scanF_congr matchHex_consume true tADDR (('x' :: hs) ++ R).length true R
    (by simp only [List.length_append, List.length_cons]; omega)]

theorem num4ScanAll_head (ds R : Str) (hd : ∀ c ∈ ds, isDigitC c = true) (hlen : 4 ≤ ds.length)
    (hb : boundaryAfter R = true) :
    scanAll matchNum4 true tNUM (ds ++ R) =
      tNUM ++ scanF matchNum4 true tNUM R.length true R := by
  have hm : matchNum4 false (ds ++ R) = some R := matchNum4_mk ds R hd hlen hb
  cases ds with
  | nil => exact absurd hlen (by decide)
  | cons c t =>
    show scanF matchNum4 true tNUM ((t ++ R).length + 1) false (c :: (t ++ R)) = _
    rw [scanF_succ]
    rw [show matchNum4 false (c :: (t ++ R)) = some R from hm]
    show tNUM ++ scanF matchNum4 true tNUM (t ++ R).length true R = _
    rw [scanF_congr matchNum4_consume true tNUM (t ++ R).length true R
      (by simp only [List.length_append]; omega)]

theorem isoScan_over_syslogtok (w1 w2 w3 da1 da2 hh1 hh2 mm1 mm2 ss1 ss2 : Char) (R : Str)
    (hw1 : isDigitC w1 = false) (hw2 : isDigitC w2 = false) (hw3 : isDigitC w3 = false)
    (hda1 : isDigitC da1 = true) (hda2 : isDigitC da2 = true)
    (hhh1 : isDigitC hh1 = true) (hhh2 : isDigitC hh2 = true)
    (hmm1 : isDigitC mm1 = true) (hmm2 : isDigitC mm2 = true)
    (hss1 : isDigitC ss1 = true) (hss2 : isDigitC ss2 = true) :
    scanAll matchISO false tTIME (mkSyslog w1 w2 w3 da1 da2 hh1 hh2 mm1 mm2 ss1 ss2 ++ R) =
      mkSyslog w1 w2 w3 da1 da2 hh1 hh2 mm1 mm2 ss1 ss2 ++ scanAll matchISO false tTIME R := by
  have F0 : ∀ (pw : Bool) (l : Str), matchISO pw ('[' :: l) = none := fun pw l =>
    matchISO_fail_nondigit pw '[' l (by decide)
  have Fw1 : ∀ (pw : Bool) (l : Str), matchISO pw (w1 :: l) = none := fun pw l =>
    matchISO_fail_nondigit pw w1 l hw1
  have Fw2 : ∀ (pw : Bool) (l : Str), matchISO pw (w2 :: l) = none := fun pw l =>
    matchISO_fail_nondigit pw w2 l hw2
  have Fw3 : ∀ (pw : Bool) (l : Str), matchISO pw (w3 :: l) = none := fun pw l =>
    matchISO_fail_nondigit pw w3 l hw3
  have Fsp : ∀ (pw : Bool) (l : Str), matchISO pw (' ' :: l) = none := fun pw l =>
    matchISO_fail_nondigit pw ' ' l (by decide)
  have Fcol : ∀ (pw : Bool) (l : Str), matchISO pw (':' :: l) = none := fun pw l =>
    matchISO_fail_nondigit pw ':' l (by decide)
  have Fbr : ∀ (pw : Bool) (l : Str), matchISO pw (']' :: l) = none := fun pw l =>
    matchISO_fail_nondigit pw ']' l (by decide)
  have Fda : ∀ (pw : Bool) (l : Str), matchISO pw (da1 :: da2 :: ' ' :: l) = none := fun pw l =>
    matchISO_fail_dig2 pw da1 da2 ' ' l hda1 hda2 (by decide)
  have Fda2 : ∀ (pw : Bool) (l : Str), matchISO pw (da2 :: ' ' :: l) = none := fun pw l =>
    matchISO_fail_dig1 pw da2 ' ' l hda2 (by decide)
  have Fhh : ∀ (pw : Bool) (l : Str), matchISO pw (hh1 :: hh2 :: ':' :: l) = none := fun pw l =>
    matchISO_fail_dig2 pw hh1 hh2 ':' l hhh1 hhh2 (by decide)
  have Fhh2 : ∀ (pw : Bool) (l : Str), matchISO pw (hh2 :: ':' :: l) = none := fun pw l =>
    matchISO_fail_dig1 pw hh2 ':' l hhh2 (by decide)
  have Fmm : ∀ (pw : Bool) (l : Str), matchISO pw (mm1 :: mm2 :: ':' :: l) = none := fun pw l =>
    matchISO_fail_dig2 pw mm1 mm2 ':' l hmm1 hmm2 (by decide)
  have Fmm2 : ∀ (pw : Bool) (l : Str), matchISO pw (mm2 :: ':' :: l) = none := fun pw l =>
    matchISO_fail_dig1 pw mm2 ':' l hmm2 (by decide)
  have Fss : ∀ (pw : Bool) (l : Str), matchISO pw (ss1 :: ss2 :: ']' :: l) = none := fun pw l =>
    matchISO_fail_dig2 pw ss1 ss2 ']' l hss1 hss2 (by decide)
  have Fss2 : ∀ (pw : Bool) (l : Str), matchISO pw (ss2 :: ']' :: l) = none := fun pw l =>
    matchISO_fail_dig1 pw ss2 ']' l hss2 (by decide)
  have hbrw : isWordC ']' = false := by decide
  unfold scanAll
  simp only [mkSyslog, List.cons_append, List.nil_append]
  simp only [scanF_step_len, F0, Fw1, Fw2, Fw3, Fsp, Fcol, Fbr, Fda, Fda2, Fhh, Fhh2,
    Fmm, Fmm2, Fss, Fss2, hbrw]

/-! ## Canonical forms of the normalizer on head-position volatile tokens -/

theorem normalizeLine_sysloghead (w1 w2 w3 da1 da2 hh1 hh2 mm1 mm2 ss1 ss2 : Char) (R : Str)
    (hww1 : isWordC w1 = true) (hww2 : isWordC w2 = true) (hww3 : isWordC w3 = true)
    (hw1 : isDigitC w1 = false) (hw2 : isDigitC w2 = false) (hw3 : isDigitC w3 = false)
    (hda1 : isDigitC da1 = true) (hda2 : isDigitC da2 = true)
    (hhh1 : isDigitC hh1 = true) (hhh2 : isDigitC hh2 = true)
    (hmm1 : isDigitC mm1 = true) (hmm2 : isDigitC mm2 = true)
    (hss1 : isDigitC ss1 = true) (hss2 : isDigitC ss2 = true) :
    Part002.normalizeLine (mkSyslog w1 w2 w3 da1 da2 hh1 hh2 mm1 mm2 ss1 ss2 ++ R) =
      trimC (scanAll matchNum4 true tNUM (scanAll matchHex true tADDR
        (tTIME ++ scanF matchSyslog false tTIME
          (16 + (scanAll matchISO false tTIME R).length) false
          (scanAll matchISO false tTIME R)))) := by
  unfold Part002.normalizeLine
  rw [isoScan_over_syslogtok w1 w2 w3 da1 da2 hh1 hh2 mm1 mm2 ss1 ss2 R
    hw1 hw2 hw3 hda1 hda2 hhh1 hhh2 hmm1 hmm2 hss1 hss2]
  rw [syslogScanAll_head w1 w2 w3 da1 da2 hh1 hh2 mm1 mm2 ss1 ss2
    (scanAll matchISO false tTIME R) hww1 hww2 hww3 hda1 hda2 hhh1 hhh2 hmm1 hmm2 hss1 hss2]

theorem normalizeLine_hexhead (hs R : Str) (hne : hs ≠ [])
    (hx : ∀ c ∈ hs, isHexC c = true) (hbd : boundaryAfter R = true)
    (hnd : headNotDash R = true) :
    Part002.normalizeLine (('0' :: 'x' :: hs) ++ R) =
      trimC (scanAll matchNum4 true tNUM (tADDR ++
        scanF matchHex true tADDR
          (scanF matchSyslog false tTIME
            (scanF matchISO false tTIME R.length true R).length true
            (scanF matchISO false tTIME R.length true R)).length
          true
          (scanF matchSyslog false tTIME
            (scanF matchISO false tTIME R.length true R).length true
            (scanF matchISO false tTIME R.length true R)))) := by
  have hword : ∀ c ∈ ('0' :: 'x' :: hs), isWordC c = true := by
    intro c hc
    rcases List.mem_cons.1 hc with rfl | hc2
    · decide
    · rcases List.mem_cons.1 hc2 with rfl | hc3
      · decide
      · exact isWordC_of_hex (hx c hc3)
  have htne : ('0' :: 'x' :: hs) ≠ [] := by simp
  have hIso : ∀ (pw2 : Bool) (c : Char) (t : Str),
      List.IsSuffix (c :: t) ('0' :: 'x' :: hs) → matchISO pw2 ((c :: t) ++ R) = none := by
    intro pw2 c t hsuf
    rcases List.suffix_cons_iff.1 hsuf with he | hsuf2
    · injection he with he1 he2
      subst he1
      subst he2
      exact matchISO_fail_dig1 pw2 '0' 'x' (hs ++ R) (by decide) (by decide)
    · rcases List.suffix_cons_iff.1 hsuf2 with he | hsuf3
      · injection he with he1 he2
        subst he1
        exact matchISO_fail_nondigit pw2 'x' (t ++ R) (by decide)
      · exact matchISO_fail_hexrun pw2 (c :: t) R
          (fun d hdm => hx d (hsuf3.sublist.subset hdm)) hbd hnd (by simp)
  have hSys : ∀ (pw2 : Bool) (c : Char) (t : Str), c ∈ ('0' :: 'x' :: hs) →
      matchSyslog pw2 (c :: t) = none := fun pw2 c t hc =>
    matchSyslog_fail pw2 c t (ne_lbr_of_word (hword c hc))
  have hbP : boundaryAfter (scanF matchISO false tTIME R.length true R) = true :=
    boundaryAfter_scanF_tTIME matchISO false R.length true R hbd
  have hbQ : boundaryAfter (scanF matchSyslog false tTIME
      (scanF matchISO false tTIME R.length true R).length true
      (scanF matchISO false tTIME R.length true R)) = true :=
    boundaryAfter_scanF_tTIME matchSyslog false _ true _ hbP
  unfold Part002.normalizeLine
  rw [scanAll_skip matchISO false tTIME ('0' :: 'x' :: hs) R hIso]
  rw [foldl_word ('0' :: 'x' :: hs) false htne hword]
  rw [scanAll_skip_head matchSyslog false tTIME ('0' :: 'x' :: hs)
    (scanF matchISO false tTIME R.length true R) hSys]
  rw [foldl_word ('0' :: 'x' :: hs) false htne hword]
  rw [hexScanAll_head hs (scanF matchSyslog false tTIME
    (scanF matchISO false tTIME R.length true R).length true
    (scanF matchISO false tTIME R.length true R)) hx hne hbQ]

theorem normalizeLine_numhead (ds R : Str) (hlen : 4 ≤ ds.length)
    (hdig : ∀ c ∈ ds, isDigitC c = true) (hbd : boundaryAfter R = true)
    (hnd : headNotDash R = true) :
    Part002.normalizeLine (ds ++ R) =
      trimC (tNUM ++ scanF matchNum4 true tNUM
        (scanF matchHex true tADDR
          (scanF matchSyslog false tTIME
            (scanF matchISO false tTIME R.length true R).length true
            (scanF matchISO false tTIME R.length true R)).length true
          (scanF matchSyslog false tTIME
            (scanF matchISO false tTIME R.length true R).length true
            (scanF matchISO false tTIME R.length true R))).length
        true
        (scanF matchHex true tADDR
          (scanF matchSyslog false tTIME
            (scanF matchISO false tTIME R.length true R).length true
            (scanF matchISO false tTIME R.length true R)).length true
          (scanF matchSyslog false tTIME
            (scanF matchISO false tTIME R.length true R).length true
            (scanF matchISO false tTIME R.length true R)))) := by
  have hne : ds ≠ [] := by
    intro h
    rw [h] at hlen
    exact absurd hlen (by decide)
  have hword : ∀ c ∈ ds, isWordC c = true := fun c hc => isWordC_of_digit (hdig c hc)
  have hIso : ∀ (pw2 : Bool) (c : Char) (t : Str), List.IsSuffix (c :: t) ds →
      matchISO pw2 ((c :: t) ++ R) = none := fun pw2 c t hsuf =>
    matchISO_fail_hexrun pw2 (c :: t) R
      (fun d hdm => isHexC_of_digit (hdig d (hsuf.sublist.subset hdm))) hbd hnd (by simp)
  have hSys : ∀ (pw2 : Bool) (c : Char) (t : Str), c ∈ ds →
      matchSyslog pw2 (c :: t) = none := fun pw2 c t hc =>
    matchSyslog_fail pw2 c t (ne_lbr_of_word (hword c hc))
  have hbP : boundaryAfter (scanF matchISO false tTIME R.length true R) = true :=
    boundaryAfter_scanF_tTIME matchISO false R.length true R hbd
  have hbQ : boundaryAfter (scanF matchSyslog false tTIME
      (scanF matchISO false tTIME R.length true R).length true
      (scanF matchISO false tTIME R.length true R)) = true :=
    boundaryAfter_scanF_tTIME matchSyslog false _ true _ hbP
  have hHex : ∀ (pw2 : Bool) (c : Char) (t : Str), List.IsSuffix (c :: t) ds →
      matchHex pw2 ((c :: t) ++ (scanF matchSyslog false tTIME
        (scanF matchISO false tTIME R.length true R).length true
        (scanF matchISO false tTIME R.length true R))) = none := fun pw2 c t hsuf =>
    matchHex_fail_dig pw2 c t _ (hdig c (hsuf.sublist.subset (List.mem_cons_self c t)))
      (fun d hdm => hdig d ((List.IsSuffix.trans ⟨[c], rfl⟩ hsuf).sublist.subset hdm)) hbQ
  have hbQ3 : boundaryAfter (scanF matchHex true tADDR
      (scanF matchSyslog false tTIME
        (scanF matchISO false tTIME R.length true R).length true
        (scanF matchISO false tTIME R.length true R)).length true
      (scanF matchSyslog false tTIME
        (scanF matchISO false tTIME R.length true R).length true
        (scanF matchISO false tTIME R.length true R))) = true :=
    boundaryAfter_scanF_tADDR matchHex true _ true _ hbQ
  unfold Part002.normalizeLine
  rw [scanAll_skip matchISO false tTIME ds R hIso]
  rw [foldl_word ds false hne hword]
  rw [scanAll_skip_head matchSyslog false tTIME ds
    (scanF matchISO false tTIME R.length true R) hSys]
  rw [foldl_word ds false hne hword]
  rw [scanAll_skip matchHex true tADDR ds
    (scanF matchSyslog false tTIME
      (scanF matchISO false tTIME R.length true R).length true
      (scanF matchISO false tTIME R.length true R)) hHex]
  rw [foldl_word ds false hne hword]
  rw [num4ScanAll_head ds (scanF matchHex true tADDR
    (scanF matchSyslog false tTIME
      (scanF matchISO false tTIME R.length true R).length true
      (scanF matchISO false tTIME R.length true R)).length true
    (scanF matchSyslog false tTIME
      (scanF matchISO false tTIME R.length true R).length true
      (scanF matchISO false tTIME R.length true R))) hdig hlen hbQ3]

theorem assocSet_fresh : ∀ (m : List (Nat × Log)) (k : Nat) (v : Log),
    (∀ p ∈ m, p.1 ≠ k) → assocSet m k v = m ++ [(k, v)]
  | [], _, _, _ => rfl
  | (k', v') :: r, k, v, h => by
    have hk : k' ≠ k := h (k', v') (List.mem_cons_self _ _)
    simp only [assocSet, if_neg hk, List.cons_append]
    rw [assocSet_fresh r k v (fun p hp => h p (List.mem_cons_of_mem _ hp))]

theorem runCreates_spec : ∀ (is : List InsertLog) (logs : List (Nat × Log)) (cid : Nat),
    (∀ p ∈ logs, p.1 < cid) →
    runCreates ⟨logs, cid⟩ is =
      ((logsFrom cid is).map (fun p => p.2),
        ⟨logs ++ logsFrom cid is, cid + is.length⟩)
  | [], logs, cid, _ => by simp [runCreates, logsFrom]
  | i :: is, logs, cid, h => by
    have hset : assocSet logs cid ⟨cid, i.originalContent, i.cleanedContent⟩ =
        logs ++ [(cid, ⟨cid, i.originalContent, i.cleanedContent⟩)] :=
      assocSet_fresh logs cid _ (fun p hp => Nat.ne_of_lt (h p hp))
    have h2 : ∀ p ∈ logs ++ [(cid, (⟨cid, i.originalContent, i.cleanedContent⟩ : Log))],
        p.1 < cid + 1 := by
      intro p hp
      rcases List.mem_append.1 hp with h1 | h1
      · exact Nat.lt_succ_of_lt (h p h1)
      · rw [List.mem_singleton.1 h1]
        exact Nat.lt_succ_self cid
    have hrec := runCreates_spec is
      (logs ++ [(cid, ⟨cid, i.originalContent, i.cleanedContent⟩)]) (cid + 1) h2
    show runCreates ⟨logs, cid⟩ (i :: is) = _
    simp only [runCreates, MemStorage.createLog, hset]
    rw [hrec]
    simp only [logsFrom, List.map_cons, List.length_cons, List.append_assoc,
      List.singleton_append]
    rw [show cid + 1 + is.length = cid + (is.length + 1) from by omega]

theorem assocGet_logsFrom : ∀ (is : List InsertLog) (k j : Nat),
    assocGet (logsFrom k is) j =
      if k ≤ j then
        (is.get? (j - k)).map (fun i => ⟨j, i.originalContent, i.cleanedContent⟩)
      else none
  | [], k, j => by
    simp [logsFrom, assocGet]
  | i :: is, k, j => by
    by_cases hkj : k = j
    · subst hkj
      simp [logsFrom, assocGet, List.get?]
    · have h1 : assocGet (logsFrom k (i :: is)) j = assocGet (logsFrom (k + 1) is) j := by
        simp [logsFrom, assocGet, hkj]
      rw [h1, assocGet_logsFrom is (k + 1) j]
      by_cases h2 : k ≤ j
      · have h3 : k < j := Nat.lt_of_le_of_ne h2 hkj
        have h4 : k + 1 ≤ j := h3
        obtain ⟨d, hd⟩ : ∃ d, j - k = d + 1 := ⟨j - k - 1, by omega⟩
        have h5 : j - (k + 1) = d := by omega
        rw [if_pos h4, if_pos h2, hd, h5]
        rfl
      · have h4 : ¬ k + 1 ≤ j := by omega
        rw [if_neg h4, if_neg h2]

/-! ## Second-pass structure of part_004's output -/

theorem isEmpty_false_of_ne {l : Str} (h : l ≠ []) : l.isEmpty = false := by
  cases l with
  | nil => exact absurd rfl h
  | cons c cs => rfl

theorem blocks4_wf (log : Str) :
    ∀ b ∈ Part004.blocks4 log,
      b ≠ [] ∧ (∀ x ∈ b, (trimC x).isEmpty = false) ∧ ∀ x ∈ b, nlc ∉ x := by
  intro b hb
  have hb' : b ∈ toBlocksAux [] (splitOnNl log) := hb
  have h1 := toBlocksAux_wf (splitOnNl log) [] (by simp) b hb'
  refine ⟨h1.1, h1.2, ?_⟩
  intro x hx
  rcases toBlocksAux_sublines (splitOnNl log) [] b hb' x hx with h2 | h2
  · simp at h2
  · exact splitOnNl_no_nl log x h2

theorem uniq4_subset_blocks4 (log : Str) {b : List Str} (hb : b ∈ Part004.uniq4 log) :
    b ∈ Part004.blocks4 log := by
  rw [uniq4_eq] at hb
  exact (reps_buildCache_sublist (joinSep [nlc]) (Part004.blocks4 log)).subset hb

theorem fmt_chunk_wf {b : List Str} (hne : b ≠ []) (hnb : ∀ x ∈ b, (trimC x).isEmpty = false)
    (hnl : ∀ x ∈ b, nlc ∉ x) (f : Str)
    (hf : f = joinSep [nlc] b ∨ ∃ n, f = joinSep [nlc] b ++ countSuffix n) :
    splitOnNl f ≠ [] ∧ ∀ x ∈ splitOnNl f, (trimC x).isEmpty = false := by
  rcases hf with rfl | ⟨n, rfl⟩
  · rw [splitOnNl_joinSep_nl b hne hnl]
    exact ⟨hne, hnb⟩
  · rcases List.eq_nil_or_concat b with rfl | ⟨bs, x, rfl⟩
    · exact absurd rfl hne
    · rw [List.concat_eq_append] at hnb hnl ⊢
      have hx : nlc ∉ x := hnl x (by simp)
      have hbs : ∀ y ∈ bs, nlc ∉ y := fun y hy => hnl y (by simp [hy])
      rw [splitOnNl_join_concat_sfx bs x (countSuffix n) hbs hx (countSuffix_no_nl n)]
      constructor
      · simp
      · intro z hz
        rcases List.mem_append.1 hz with h1 | h1
        · exact hnb z (List.mem_append.2 (Or.inl h1))
        · rw [List.mem_singleton.1 h1]
          have hxx : 'x' ∈ x ++ countSuffix n :=
            List.mem_append.2 (Or.inr (countSuffix_bracket n))
          exact isEmpty_false_of_ne (trimC_ne_nil hxx (by decide))

theorem dedup4_idem_of_nodup (log : Str)
    (hnd : ((Part004.uniq4 log).map (fun block =>
      match Part004.cget (Part004.counts4 log) (joinSep [nlc] block) with
      | some n => if n > 1 then joinSep [nlc] block ++ countSuffix n else joinSep [nlc] block
      | none => joinSep [nlc] block)).Nodup) :
    Part004.deduplicateLog (Part004.deduplicateLog log) = Part004.deduplicateLog log := by
  have hout : Part004.deduplicateLog log =
      joinSep [nlc, nlc] ((Part004.uniq4 log).map (fun block =>
        match Part004.cget (Part004.counts4 log) (joinSep [nlc] block) with
        | some n => if n > 1 then joinSep [nlc] block ++ countSuffix n else joinSep [nlc] block
        | none => joinSep [nlc] block)) := rfl
  by_cases hFnil : ((Part004.uniq4 log).map (fun block =>
      match Part004.cget (Part004.counts4 log) (joinSep [nlc] block) with
      | some n => if n > 1 then joinSep [nlc] block ++ countSuffix n else joinSep [nlc] block
      | none => joinSep [nlc] block)) = []
  · have h0 : Part004.deduplicateLog log = [] := by
      rw [hout, hFnil]
      rfl
    rw [h0]
    decide
  · have hchunk : ∀ f ∈ ((Part004.uniq4 log).map (fun block =>
        match Part004.cget (Part004.counts4 log) (joinSep [nlc] block) with
        | some n => if n > 1 then joinSep [nlc] block ++ countSuffix n else joinSep [nlc] block
        | none => joinSep [nlc] block)),
        splitOnNl f ≠ [] ∧ ∀ x ∈ splitOnNl f, (trimC x).isEmpty = false := by
      intro f hf
      obtain ⟨b, hb, rfl⟩ := List.mem_map.1 hf
      have hwf := blocks4_wf log b (uniq4_subset_blocks4 log hb)
      refine fmt_chunk_wf hwf.1 hwf.2.1 hwf.2.2 _ ?_
      rcases hcg : Part004.cget (Part004.counts4 log) (joinSep [nlc] b) with - | n
      · exact Or.inl (by simp [hcg])
      · by_cases hn : n > 1
        · exact Or.inr ⟨n, by simp [hcg, hn]⟩
        · exact Or.inl (by simp [hcg, hn])
    have hsplit_out : splitOnNl (Part004.deduplicateLog log) =
        joinSep [[]] (((Part004.uniq4 log).map (fun block =>
          match Part004.cget (Part004.counts4 log) (joinSep [nlc] block) with
          | some n => if n > 1 then joinSep [nlc] block ++ countSuffix n
            else joinSep [nlc] block
          | none => joinSep [nlc] block)).map splitOnNl) := by
      rw [hout]
      exact splitOnNl_joinSep_nlnl _ hFnil
    have hblocks_out : Part004.blocks4 (Part004.deduplicateLog log) =
        ((Part004.uniq4 log).map (fun block =>
          match Part004.cget (Part004.counts4 log) (joinSep [nlc] block) with
          | some n => if n > 1 then joinSep [nlc] block ++ countSuffix n
            else joinSep [nlc] block
          | none => joinSep [nlc] block)).map splitOnNl := by
      show toBlocksAux [] (splitOnNl (Part004.deduplicateLog log)) = _
      rw [hsplit_out]
      refine toBlocks_chunks _ ?_ ?_
      · intro c hc
        obtain ⟨f, hf, rfl⟩ := List.mem_map.1 hc
        exact (hchunk f hf).1
      · intro c hc
        obtain ⟨f, hf, rfl⟩ := List.mem_map.1 hc
        exact (hchunk f hf).2
    have hkeys : (Part004.blocks4 (Part004.deduplicateLog log)).map (joinSep [nlc]) =
        ((Part004.uniq4 log).map (fun block =>
          match Part004.cget (Part004.counts4 log) (joinSep [nlc] block) with
          | some n => if n > 1 then joinSep [nlc] block ++ countSuffix n
            else joinSep [nlc] block
          | none => joinSep [nlc] block)) := by
      rw [hblocks_out, List.map_map]
      have he : ∀ f ∈ ((Part004.uniq4 log).map (fun block =>
          match Part004.cget (Part004.counts4 log) (joinSep [nlc] block) with
          | some n => if n > 1 then joinSep [nlc] block ++ countSuffix n
            else joinSep [nlc] block
          | none => joinSep [nlc] block)), (joinSep [nlc] ∘ splitOnNl) f = id f := by
        intro f _
        exact joinSep_splitOnNl f
      rw [List.map_congr_left he, List.map_id]
    have hknodup : ((Part004.blocks4 (Part004.deduplicateLog log)).map (joinSep [nlc])).Nodup := by
      rw [hkeys]
      exact hnd
    have huniq_out : Part004.uniq4 (Part004.deduplicateLog log) =
        Part004.blocks4 (Part004.deduplicateLog log) := by
      rw [uniq4_eq]
      exact reps_of_nodup _ _ hknodup
    rw [dedup4_true_counts (Part004.deduplicateLog log), huniq_out]
    have hone : ∀ f ∈ ((Part004.uniq4 log).map (fun block =>
        match Part004.cget (Part004.counts4 log) (joinSep [nlc] block) with
        | some n => if n > 1 then joinSep [nlc] block ++ countSuffix n else joinSep [nlc] block
        | none => joinSep [nlc] block)),
        keyCount (joinSep [nlc]) (Part004.blocks4 (Part004.deduplicateLog log))
          (joinSep [nlc] (splitOnNl f)) = 1 := by
      intro f hf
      rw [joinSep_splitOnNl f, hblocks_out]
      unfold keyCount
      rw [List.countP_map]
      have hcongr : ∀ g ∈ ((Part004.uniq4 log).map (fun block =>
          match Part004.cget (Part004.counts4 log) (joinSep [nlc] block) with
          | some n => if n > 1 then joinSep [nlc] block ++ countSuffix n
            else joinSep [nlc] block
          | none => joinSep [nlc] block)),
          ((fun a => decide (joinSep [nlc] a = f)) ∘ splitOnNl) g = true ↔
            (fun g2 => decide (g2 = f)) g = true := by
        intro g _
        simp [joinSep_splitOnNl g]
      rw [List.countP_congr hcongr]
      exact countP_eq_one_of_nodup hnd hf
    have hmapped : ∀ b ∈ Part004.blocks4 (Part004.deduplicateLog log),
        (fun block =>
          if keyCount (joinSep [nlc]) (Part004.blocks4 (Part004.deduplicateLog log))
              (joinSep [nlc] block) > 1 then
            joinSep [nlc] block ++
              countSuffix (keyCount (joinSep [nlc])
                (Part004.blocks4 (Part004.deduplicateLog log)) (joinSep [nlc] block))
          else joinSep [nlc] block) b = joinSep [nlc] b := by
      intro b hb
      rw [hblocks_out] at hb
      obtain ⟨f, hf, rfl⟩ := List.mem_map.1 hb
      show (if keyCount (joinSep [nlc]) (Part004.blocks4 (Part004.deduplicateLog log))
          (joinSep [nlc] (splitOnNl f)) > 1 then _ else joinSep [nlc] (splitOnNl f)) =
        joinSep [nlc] (splitOnNl f)
      rw [hone f hf]
      simp
    rw [List.map_congr_left hmapped, hkeys]
    exact hout.symm

/-! ## Claim theorems -/

/-- C1: in both block-based variants (part_004's exact-text dedup and part_001's
fingerprint dedup), the count emitted with each fingerprint's representative equals
exactly the number of blocks in the input whose fingerprint matches it, and the
` [x<count>]` annotation is appended only when that count is greater than 1. -/
theorem claim_C1_counts :
    (∀ log : Str, Part004.deduplicateLog log =
      joinSep [nlc, nlc]
        ((Part004.uniq4 log).map (fun block =>
          if keyCount (joinSep [nlc]) (Part004.blocks4 log) (joinSep [nlc] block) > 1 then
            joinSep [nlc] block ++
              countSuffix (keyCount (joinSep [nlc]) (Part004.blocks4 log) (joinSep [nlc] block))
          else joinSep [nlc] block)))
    ∧ (∀ log : Str, Part001.deduplicateLog log =
      joinSep [nlc] ((Part001.processedLines1 log).map (fun line =>
        if line.isEmpty then []
        else
          if keyCount Part001.normalizeErrorMessage (Part001.blockTexts log)
              (Part001.normalizeErrorMessage line) > 1 then
            line ++ countSuffix (keyCount Part001.normalizeErrorMessage
              (Part001.blockTexts log) (Part001.normalizeErrorMessage line))
          else line))) :=
  ⟨dedup4_true_counts, Part001.dedup1_true_counts⟩

/-- C2: the text emitted for a fingerprint is the verbatim, non-normalized joined
text of the first block (in input order) with that fingerprint, in part_001's
block-cache variant and part_002's line-map variant alike. -/
theorem claim_C2_first_rep :
    (∀ (log line : Str), line ∈ Part001.processedLines1 log → line.isEmpty = false →
      (Part001.blockTexts log).find? (fun t =>
        decide (Part001.normalizeErrorMessage t = Part001.normalizeErrorMessage line)) =
        some line)
    ∧ (∀ (log : Str) (e : CacheEntry Str), e ∈ Part002.seen2 log →
      (Part002.lines2 log).find? (fun t =>
        decide (Part002.normalizeLine t = Part002.normalizeLine e.original)) =
          some e.original
      ∧ e.key = Part002.normalizeLine e.original) := by
  constructor
  · intro log line hline hne
    have hmem : line ∈ (Part001.processedLines1 log).filter (fun l => !l.isEmpty) :=
      List.mem_filter.2 ⟨hline, by simp [hne]⟩
    rw [(Part001.finalState_spec log).2, (Part001.finalState_spec log).1] at hmem
    exact (rep_first Part001.normalizeErrorMessage (Part001.blockTexts log) hmem).1
  · intro log e he
    have hb : e.original ∈ reps (Part002.seen2 log) := List.mem_map.2 ⟨e, he, rfl⟩
    refine ⟨(rep_first Part002.normalizeLine (Part002.lines2 log) hb).1, ?_⟩
    exact wf_buildCache Part002.normalizeLine (Part002.lines2 log) e he

/-- C3: unique blocks appear in the output in exactly the order in which their
fingerprints were first seen: the emitted representatives form a sublist of the
input's blocks (preserving relative input order), each is the first input block
with its fingerprint, and every input block's fingerprint is represented. -/
theorem claim_C3_order :
    (∀ log : Str, List.Sublist (Part004.uniq4 log) (Part004.blocks4 log)
      ∧ (∀ b ∈ Part004.uniq4 log,
          (Part004.blocks4 log).find? (fun x =>
            decide (joinSep [nlc] x = joinSep [nlc] b)) = some b)
      ∧ (∀ x ∈ Part004.blocks4 log,
          ∃ b ∈ Part004.uniq4 log, joinSep [nlc] b = joinSep [nlc] x))
    ∧ (∀ log : Str,
      List.Sublist ((Part001.processedLines1 log).filter (fun l => !l.isEmpty))
        (Part001.blockTexts log)
      ∧ (∀ t ∈ (Part001.processedLines1 log).filter (fun l => !l.isEmpty),
          (Part001.blockTexts log).find? (fun x =>
            decide (Part001.normalizeErrorMessage x = Part001.normalizeErrorMessage t)) =
            some t)
      ∧ (∀ x ∈ Part001.blockTexts log,
          ∃ t ∈ (Part001.processedLines1 log).filter (fun l => !l.isEmpty),
            Part001.normalizeErrorMessage t = Part001.normalizeErrorMessage x)) := by
  constructor
  · intro log
    refine ⟨?_, ?_, ?_⟩
    · rw [uniq4_eq]
      exact reps_buildCache_sublist (joinSep [nlc]) (Part004.blocks4 log)
    · intro b hb
      rw [uniq4_eq] at hb
      exact (rep_first (joinSep [nlc]) (Part004.blocks4 log) hb).1
    · intro x hx
      obtain ⟨b, hb, hk⟩ := key_covered (joinSep [nlc]) (Part004.blocks4 log) hx
      rw [← uniq4_eq] at hb
      exact ⟨b, hb, hk⟩
  · intro log
    refine ⟨?_, ?_, ?_⟩
    · rw [(Part001.finalState_spec log).2, (Part001.finalState_spec log).1]
      exact reps_buildCache_sublist Part001.normalizeErrorMessage (Part001.blockTexts log)
    · intro t ht
      rw [(Part001.finalState_spec log).2, (Part001.finalState_spec log).1] at ht
      exact (rep_first Part001.normalizeErrorMessage (Part001.blockTexts log) ht).1
    · intro x hx
      obtain ⟨t, ht, hk⟩ := key_covered Part001.normalizeErrorMessage
        (Part001.blockTexts log) hx
      rw [← (Part001.finalState_spec log).1, ← (Part001.finalState_spec log).2] at ht
      exact ⟨t, ht, hk⟩

/-- C6: on the literal two-timestamp scenario the two blocks get the same
fingerprint `<TIME> Connection failed`, and part_002's deduplicateLog returns
exactly the single annotated block. -/
theorem claim_C6_scenario :
    Part002.deduplicateLog
        (s2l "2024-01-01 10:00:00 Connection failed\n\n2024-01-01 10:00:05 Connection failed") =
      s2l "2024-01-01 10:00:00 Connection failed [x2]"
    ∧ Part002.normalizeLine (s2l "2024-01-01 10:00:00 Connection failed") =
        Part002.normalizeLine (s2l "2024-01-01 10:00:05 Connection failed")
    ∧ Part002.normalizeLine (s2l "2024-01-01 10:00:00 Connection failed") =
        s2l "<TIME> Connection failed" := by
  refine ⟨by decide, by decide, by decide⟩

/-- Witness for C2 at a concrete input. -/
theorem claim_C2_w :
    (Part001.blockTexts (s2l "a\n\na")).find? (fun t =>
      decide (Part001.normalizeErrorMessage t = Part001.normalizeErrorMessage (s2l "a"))) =
        some (s2l "a")
    ∧ (Part002.lines2 (s2l "a\n\na")).find? (fun t =>
      decide (Part002.normalizeLine t = Part002.normalizeLine (s2l "a"))) = some (s2l "a") :=
  ⟨claim_C2_first_rep.1 (s2l "a\n\na") (s2l "a") (by decide) (by decide),
   (claim_C2_first_rep.2 (s2l "a\n\na")
     ⟨Part002.normalizeLine (s2l "a"), s2l "a", 2⟩ (by decide)).1⟩

/-- Witness for C3 at a concrete input. -/
theorem claim_C3_w :
    List.Sublist (Part004.uniq4 (s2l "b\n\na\n\nb")) (Part004.blocks4 (s2l "b\n\na\n\nb"))
    ∧ (Part004.blocks4 (s2l "b\n\na\n\nb")).find? (fun x =>
        decide (joinSep [nlc] x = joinSep [nlc] [s2l "a"])) = some [s2l "a"]
    ∧ ∃ t ∈ (Part001.processedLines1 (s2l "b\n\na\n\nb")).filter (fun l => !l.isEmpty),
        Part001.normalizeErrorMessage t = Part001.normalizeErrorMessage (s2l "b") :=
  ⟨(claim_C3_order.1 (s2l "b\n\na\n\nb")).1,
   (claim_C3_order.1 (s2l "b\n\na\n\nb")).2.1 [s2l "a"] (by decide),
   (claim_C3_order.2 (s2l "b\n\na\n\nb")).2.2 (s2l "b") (by decide)⟩

/-- C5 counterexample: deduplicate is not idempotent on every input.  For the input
whose blocks are `a`, `a`, `a [x2]`, the first pass emits `a [x2]` twice (once as an
annotation, once as literal content), and the second pass collapses them further. -/
theorem claim_C5_cex :
    Part004.deduplicateLog (Part004.deduplicateLog (s2l "a\n\na\n\na [x2]")) ≠
      Part004.deduplicateLog (s2l "a\n\na\n\na [x2]") := by
  decide

/-- C5 (amended): applying deduplicate to its own output yields the same output
provided the formatted (possibly `[xN]`-annotated) unique blocks of the first pass
are pairwise distinct, i.e. no annotated representative collides with another
emitted block's text. -/
theorem claim_C5_amended (log : Str)
    (hnd : ((Part004.uniq4 log).map (fun block =>
      match Part004.cget (Part004.counts4 log) (joinSep [nlc] block) with
      | some n => if n > 1 then joinSep [nlc] block ++ countSuffix n else joinSep [nlc] block
      | none => joinSep [nlc] block)).Nodup) :
    Part004.deduplicateLog (Part004.deduplicateLog log) = Part004.deduplicateLog log :=
  dedup4_idem_of_nodup log hnd

/-- Witness for the amended C5 at a concrete input. -/
theorem claim_C5_w :
    Part004.deduplicateLog (Part004.deduplicateLog (s2l "a\n\na")) =
      Part004.deduplicateLog (s2l "a\n\na") :=
  claim_C5_amended (s2l "a\n\na") (by decide)

/-- C8: deduplicate is total by construction, and on any input all of whose lines
are blank after trimming (including the empty string) it returns the empty string,
in both the part_004 and part_002 variants. -/
theorem claim_C8_blank (log : Str)
    (h : ∀ l ∈ splitOnNl log, (trimC l).isEmpty = true) :
    Part004.deduplicateLog log = [] ∧ Part002.deduplicateLog log = [] := by
  constructor
  · have hblocks : Part004.blocks4 log = [] := toBlocksAux_all_blank (splitOnNl log) h
    have huniq : Part004.uniq4 log = [] := by
      unfold Part004.uniq4
      rw [hblocks]
      rfl
    unfold Part004.deduplicateLog
    rw [huniq]
    rfl
  · have hlines : Part002.lines2 log = [] := by
      unfold Part002.lines2
      rw [List.filter_eq_nil]
      intro l hl
      obtain ⟨l0, hl0, rfl⟩ := List.mem_map.1 hl
      have := h l0 hl0
      simp [this]
    unfold Part002.deduplicateLog Part002.seen2
    rw [hlines]
    rfl

/-- Witness for C8 at the empty string. -/
theorem claim_C8_w :
    Part004.deduplicateLog (s2l "") = [] ∧ Part002.deduplicateLog (s2l "") = [] :=
  claim_C8_blank (s2l "") (by decide)

/-- C7: in part_004's output, consecutive unique (annotated) blocks are separated by
exactly one blank line, there is no leading or trailing blank line, and no empty
blocks arise: the output's lines are exactly the annotated blocks' line lists joined
by a single empty line, and every such line list is non-empty with only non-blank
lines; an input with no blocks yields the empty output. -/
theorem claim_C7_structure :
    (∀ log : Str, Part004.blocks4 log = [] → Part004.deduplicateLog log = [])
    ∧ (∀ log : Str, Part004.blocks4 log ≠ [] →
        splitOnNl (Part004.deduplicateLog log) =
          joinSep [[]] (((Part004.uniq4 log).map (fun block =>
            match Part004.cget (Part004.counts4 log) (joinSep [nlc] block) with
            | some n => if n > 1 then joinSep [nlc] block ++ countSuffix n
              else joinSep [nlc] block
            | none => joinSep [nlc] block)).map splitOnNl)
        ∧ ∀ chunk ∈ ((Part004.uniq4 log).map (fun block =>
            match Part004.cget (Part004.counts4 log) (joinSep [nlc] block) with
            | some n => if n > 1 then joinSep [nlc] block ++ countSuffix n
              else joinSep [nlc] block
            | none => joinSep [nlc] block)).map splitOnNl,
            chunk ≠ [] ∧ ∀ line ∈ chunk, (trimC line).isEmpty = false) := by
  constructor
  · intro log h
    have huniq : Part004.uniq4 log = [] := by
      unfold Part004.uniq4
      rw [h]
      rfl
    unfold Part004.deduplicateLog
    rw [huniq]
    rfl
  · intro log h
    have hchunk : ∀ f ∈ ((Part004.uniq4 log).map (fun block =>
        match Part004.cget (Part004.counts4 log) (joinSep [nlc] block) with
        | some n => if n > 1 then joinSep [nlc] block ++ countSuffix n
          else joinSep [nlc] block
        | none => joinSep [nlc] block)),
        splitOnNl f ≠ [] ∧ ∀ x ∈ splitOnNl f, (trimC x).isEmpty = false := by
      intro f hf
      obtain ⟨b, hb, rfl⟩ := List.mem_map.1 hf
      have hwf := blocks4_wf log b (uniq4_subset_blocks4 log hb)
      refine fmt_chunk_wf hwf.1 hwf.2.1 hwf.2.2 _ ?_
      rcases hcg : Part004.cget (Part004.counts4 log) (joinSep [nlc] b) with - | n
      · exact Or.inl (by simp [hcg])
      · by_cases hn : n > 1
        · exact Or.inr ⟨n, by simp [hcg, hn]⟩
        · exact Or.inl (by simp [hcg, hn])
    have hFne : ((Part004.uniq4 log).map (fun block =>
        match Part004.cget (Part004.counts4 log) (joinSep [nlc] block) with
        | some n => if n > 1 then joinSep [nlc] block ++ countSuffix n
          else joinSep [nlc] block
        | none => joinSep [nlc] block)) ≠ [] := by
      obtain ⟨b, hbmem⟩ : ∃ b, b ∈ Part004.blocks4 log := by
        cases hbl : Part004.blocks4 log with
        | nil => exact absurd hbl h
        | cons x xs => exact ⟨x, hbl ▸ List.mem_cons_self x xs⟩
      obtain ⟨r, hr, -⟩ := key_covered (joinSep [nlc]) (Part004.blocks4 log) hbmem
      rw [← uniq4_eq] at hr
      intro hcon
      rw [List.map_eq_nil] at hcon
      rw [hcon] at hr
      simp at hr
    constructor
    · exact splitOnNl_joinSep_nlnl _ hFne
    · intro chunk hc
      obtain ⟨f, hf, rfl⟩ := List.mem_map.1 hc
      exact hchunk f hf

/-- Witness for C7 at concrete inputs. -/
theorem claim_C7_w :
    Part004.deduplicateLog (s2l "\n\n") = []
    ∧ splitOnNl (Part004.deduplicateLog (s2l "a\n\na\n\nb")) =
        joinSep [[]] (((Part004.uniq4 (s2l "a\n\na\n\nb")).map (fun block =>
          match Part004.cget (Part004.counts4 (s2l "a\n\na\n\nb")) (joinSep [nlc] block) with
          | some n => if n > 1 then joinSep [nlc] block ++ countSuffix n
            else joinSep [nlc] block
          | none => joinSep [nlc] block)).map splitOnNl) :=
  ⟨claim_C7_structure.1 (s2l "\n\n") (by decide),
   (claim_C7_structure.2 (s2l "a\n\na\n\nb") (by decide)).1⟩

/-- C4 counterexample: the claimed pipeline does not hold of either normalizer in
the source.  part_002's `normalizeLine` has no bracketed-tag → `<ID>` pass, so two
blocks differing only in a bracketed tag keep distinct fingerprints; part_001's
`normalizeErrorMessage` has no hex-address pass, so two blocks differing only in a
`0x…` address keep distinct fingerprints. -/
theorem claim_C4_cex :
    Part002.normalizeLine (s2l "[abc] fail") ≠ Part002.normalizeLine (s2l "[xyz] fail")
    ∧ Part001.normalizeErrorMessage (s2l "at 0xdeadbeef") ≠
        Part001.normalizeErrorMessage (s2l "at 0xcafebabe") := by
  refine ⟨by decide, by decide⟩

/-- C4 (amended): part_002's `normalizeLine` applies, in fixed order over the
progressively rewritten string, ISO timestamps → `<TIME>`, bracketed syslog
timestamps → `<TIME>`, word-delimited hex addresses → `<ADDR>` and word-delimited
digit runs of length ≥ 4 → `<NUM>`, then trims.  Proved collapse, universal over
the token content, at the head of the block text with an arbitrary shared
remainder: two blocks starting with well-formed ISO timestamps, bracketed syslog
timestamps, hex addresses or ≥ 4-digit runs (under the stated word-boundary side
conditions on the remainder) and otherwise identical yield the same fingerprint;
mid-block occurrences follow the same scanner and are pinned by the concrete
instances.  There is no bracketed tag → `<ID>` transform (part_001's separate
variant instead rewrites bracketed tags to `[ID]` and every digit run to
`<num>`). -/
theorem claim_C4_amended :
    (∀ (y1 y2 y3 y4 mo1 mo2 d1 d2 sep h1c h2c mi1 mi2 se1 se2 : Char)
       (z1 z2 z3 z4 no1 no2 e1 e2 sep2 g1c g2c ni1 ni2 te1 te2 : Char) (post : Str),
      isDigitC y1 = true → isDigitC y2 = true → isDigitC y3 = true → isDigitC y4 = true →
      isDigitC mo1 = true → isDigitC mo2 = true → isDigitC d1 = true → isDigitC d2 = true →
      isDigitC h1c = true → isDigitC h2c = true → isDigitC mi1 = true → isDigitC mi2 = true →
      isDigitC se1 = true → isDigitC se2 = true →
      isDigitC z1 = true → isDigitC z2 = true → isDigitC z3 = true → isDigitC z4 = true →
      isDigitC no1 = true → isDigitC no2 = true → isDigitC e1 = true → isDigitC e2 = true →
      isDigitC g1c = true → isDigitC g2c = true → isDigitC ni1 = true → isDigitC ni2 = true →
      isDigitC te1 = true → isDigitC te2 = true →
      (sep = ' ' ∨ sep = 'T') → (sep2 = ' ' ∨ sep2 = 'T') → fracStart post = false →
      Part002.normalizeLine (mkISO y1 y2 y3 y4 mo1 mo2 d1 d2 sep h1c h2c mi1 mi2 se1 se2
          ++ post) =
        Part002.normalizeLine (mkISO z1 z2 z3 z4 no1 no2 e1 e2 sep2 g1c g2c ni1 ni2 te1 te2
          ++ post))
    ∧ (∀ (w1 w2 w3 da1 da2 hh1 hh2 mm1 mm2 ss1 ss2
          v1 v2 v3 ea1 ea2 gg1 gg2 nn1 nn2 tt1 tt2 : Char) (post : Str),
        isWordC w1 = true → isWordC w2 = true → isWordC w3 = true →
        isDigitC w1 = false → isDigitC w2 = false → isDigitC w3 = false →
        isWordC v1 = true → isWordC v2 = true → isWordC v3 = true →
        isDigitC v1 = false → isDigitC v2 = false → isDigitC v3 = false →
        isDigitC da1 = true → isDigitC da2 = true → isDigitC hh1 = true →
        isDigitC hh2 = true → isDigitC mm1 = true → isDigitC mm2 = true →
        isDigitC ss1 = true → isDigitC ss2 = true →
        isDigitC ea1 = true → isDigitC ea2 = true → isDigitC gg1 = true →
        isDigitC gg2 = true → isDigitC nn1 = true → isDigitC nn2 = true →
        isDigitC tt1 = true → isDigitC tt2 = true →
        Part002.normalizeLine (mkSyslog w1 w2 w3 da1 da2 hh1 hh2 mm1 mm2 ss1 ss2 ++ post) =
          Part002.normalizeLine (mkSyslog v1 v2 v3 ea1 ea2 gg1 gg2 nn1 nn2 tt1 tt2 ++ post))
    ∧ (∀ (hs1 hs2 post : Str),
        hs1 ≠ [] → hs2 ≠ [] →
        (∀ c ∈ hs1, isHexC c = true) → (∀ c ∈ hs2, isHexC c = true) →
        boundaryAfter post = true → headNotDash post = true →
        Part002.normalizeLine (('0' :: 'x' :: hs1) ++ post) =
          Part002.normalizeLine (('0' :: 'x' :: hs2) ++ post))
    ∧ (∀ (ds1 ds2 post : Str),
        4 ≤ ds1.length → 4 ≤ ds2.length →
        (∀ c ∈ ds1, isDigitC c = true) → (∀ c ∈ ds2, isDigitC c = true) →
        boundaryAfter post = true → headNotDash post = true →
        Part002.normalizeLine (ds1 ++ post) = Part002.normalizeLine (ds2 ++ post))
    ∧ Part002.normalizeLine (s2l "ptr 0xdeadbeef fail") =
        Part002.normalizeLine (s2l "ptr 0xcafe fail")
    ∧ Part002.normalizeLine (s2l "Failed request id=1023") =
        Part002.normalizeLine (s2l "Failed request id=9981")
    ∧ Part002.normalizeLine (s2l "[Jan 01 10:00:00] up") =
        Part002.normalizeLine (s2l "[Feb 12 11:22:33] up") := by
  refine ⟨?_, ?_, ?_, ?_, by decide, by decide, by decide⟩
  · intro y1 y2 y3 y4 mo1 mo2 d1 d2 sep h1c h2c mi1 mi2 se1 se2
      z1 z2 z3 z4 no1 no2 e1 e2 sep2 g1c g2c ni1 ni2 te1 te2 post
      hy1 hy2 hy3 hy4 hmo1 hmo2 hd1 hd2 hh1 hh2 hmi1 hmi2 hs1 hs2
      hz1 hz2 hz3 hz4 hno1 hno2 he1 he2 hg1 hg2 hni1 hni2 hte1 hte2 hsep hsep2 hfrac
    unfold Part002.normalizeLine
    rw [isoScanAll_head y1 y2 y3 y4 mo1 mo2 d1 d2 sep h1c h2c mi1 mi2 se1 se2 post
        hy1 hy2 hy3 hy4 hmo1 hmo2 hd1 hd2 hh1 hh2 hmi1 hmi2 hs1 hs2 hsep hfrac,
      isoScanAll_head z1 z2 z3 z4 no1 no2 e1 e2 sep2 g1c g2c ni1 ni2 te1 te2 post
        hz1 hz2 hz3 hz4 hno1 hno2 he1 he2 hg1 hg2 hni1 hni2 hte1 hte2 hsep2 hfrac]
  · intro w1 w2 w3 da1 da2 hh1 hh2 mm1 mm2 ss1 ss2
      v1 v2 v3 ea1 ea2 gg1 gg2 nn1 nn2 tt1 tt2 post
      hww1 hww2 hww3 hw1 hw2 hw3 hvv1 hvv2 hvv3 hv1 hv2 hv3
      hda1 hda2 hhh1 hhh2 hmm1 hmm2 hss1 hss2
      hea1 hea2 hgg1 hgg2 hnn1 hnn2 htt1 htt2
    rw [normalizeLine_sysloghead w1 w2 w3 da1 da2 hh1 hh2 mm1 mm2 ss1 ss2 post
        hww1 hww2 hww3 hw1 hw2 hw3 hda1 hda2 hhh1 hhh2 hmm1 hmm2 hss1 hss2,
      normalizeLine_sysloghead v1 v2 v3 ea1 ea2 gg1 gg2 nn1 nn2 tt1 tt2 post
        hvv1 hvv2 hvv3 hv1 hv2 hv3 hea1 hea2 hgg1 hgg2 hnn1 hnn2 htt1 htt2]
  · intro hs1 hs2 post hne1 hne2 hx1 hx2 hbd hnd
    rw [normalizeLine_hexhead hs1 post hne1 hx1 hbd hnd,
      normalizeLine_hexhead hs2 post hne2 hx2 hbd hnd]
  · intro ds1 ds2 post hl1 hl2 hd1 hd2 hbd hnd
    rw [normalizeLine_numhead ds1 post hl1 hd1 hbd hnd,
      normalizeLine_numhead ds2 post hl2 hd2 hbd hnd]

/-- Witness for the amended C4: concrete instances of all four universal collapse
families. -/
theorem claim_C4_w :
    Part002.normalizeLine (mkISO '2' '0' '2' '4' '0' '1' '0' '1' ' ' '1' '0' '0' '0' '0' '0'
        ++ s2l " Connection failed") =
      Part002.normalizeLine (mkISO '2' '0' '2' '4' '0' '1' '0' '1' ' ' '1' '0' '0' '0' '0' '5'
        ++ s2l " Connection failed")
    ∧ Part002.normalizeLine (mkSyslog 'J' 'a' 'n' '0' '1' '1' '0' '0' '0' '0' '0'
        ++ s2l " up") =
      Part002.normalizeLine (mkSyslog 'F' 'e' 'b' '1' '2' '1' '1' '2' '2' '3' '3'
        ++ s2l " up")
    ∧ Part002.normalizeLine (('0' :: 'x' :: s2l "deadbeef") ++ s2l " fail") =
        Part002.normalizeLine (('0' :: 'x' :: s2l "cafe") ++ s2l " fail")
    ∧ Part002.normalizeLine (s2l "1023" ++ s2l " errors") =
        Part002.normalizeLine (s2l "99887" ++ s2l " errors") :=
  ⟨claim_C4_amended.1 '2' '0' '2' '4' '0' '1' '0' '1' ' ' '1' '0' '0' '0' '0' '0'
      '2' '0' '2' '4' '0' '1' '0' '1' ' ' '1' '0' '0' '0' '0' '5' (s2l " Connection failed")
      (by decide) (by decide) (by decide) (by decide) (by decide) (by decide) (by decide)
      (by decide) (by decide) (by decide) (by decide) (by decide) (by decide) (by decide)
      (by decide) (by decide) (by decide) (by decide) (by decide) (by decide) (by decide)
      (by decide) (by decide) (by decide) (by decide) (by decide) (by decide) (by decide)
      (Or.inl rfl) (Or.inl rfl) (by decide),
    claim_C4_amended.2.1 'J' 'a' 'n' '0' '1' '1' '0' '0' '0' '0' '0'
      'F' 'e' 'b' '1' '2' '1' '1' '2' '2' '3' '3' (s2l " up")
      (by decide) (by decide) (by decide) (by decide) (by decide) (by decide)
      (by decide) (by decide) (by decide) (by decide) (by decide) (by decide)
      (by decide) (by decide) (by decide) (by decide) (by decide) (by decide)
      (by decide) (by decide) (by decide) (by decide) (by decide) (by decide)
      (by decide) (by decide) (by decide) (by decide),
    claim_C4_amended.2.2.1 (s2l "deadbeef") (s2l "cafe") (s2l " fail")
      (by decide) (by decide) (by decide) (by decide) (by decide) (by decide),
    claim_C4_amended.2.2.2.1 (s2l "1023") (s2l "99887") (s2l " errors")
      (by decide) (by decide) (by decide) (by decide) (by decide) (by decide)⟩

theorem logsFrom_length : ∀ (is : List InsertLog) (k : Nat),
    (logsFrom k is).length = is.length
  | [], _ => rfl
  | i :: is, k => by simp [logsFrom, logsFrom_length is (k + 1)]

theorem logsFrom_get? : ∀ (is : List InsertLog) (k i : Nat),
    (logsFrom k is).get? i =
      (is.get? i).map (fun ins =>
        (k + i, (⟨k + i, ins.originalContent, ins.cleanedContent⟩ : Log)))
  | [], _, _ => by simp [logsFrom]
  | ins :: is, k, 0 => by simp [logsFrom]
  | ins :: is, k, i + 1 => by
    show (logsFrom (k + 1) is).get? i = _
    rw [logsFrom_get? is (k + 1) i]
    have he : k + 1 + i = k + (i + 1) := by omega
    rw [he]
    rfl

/-- C9: a POST /api/clean-log whose body has no `log` field or an empty `log` is
rejected with status 400 and a non-empty error message, without invoking the LLM
collaborator and leaving the store unchanged; an LLM failure on a valid body yields
status 500 (also leaving the store unchanged). -/
theorem claim_C9_badreq :
    (∀ (body : ReqBody) (llm : Str → Except Str Str) (st : MemStorage),
      body = ReqBody.noLog ∨ body = ReqBody.logVal [] →
      (postCleanLog body llm st).status = 400 ∧ (postCleanLog body llm st).store = st
      ∧ (postCleanLog body llm st).llmCalled = false ∧ (postCleanLog body llm st).resp ≠ [])
    ∧ (∀ (s : Str) (llm : Str → Except Str Str) (st : MemStorage) (e : Str),
        s ≠ [] → llm s = Except.error e →
        (postCleanLog (ReqBody.logVal s) llm st).status = 500
        ∧ (postCleanLog (ReqBody.logVal s) llm st).store = st) := by
  constructor
  · intro body llm st h
    rcases h with rfl | rfl
    · refine ⟨rfl, rfl, rfl, ?_⟩
      show s2l "Required" ≠ []
      decide
    · refine ⟨rfl, rfl, rfl, ?_⟩
      show s2l "Log content is required" ≠ []
      decide
  · intro s llm st e hs hllm
    have hne : s.isEmpty = false := isEmpty_false_of_ne hs
    constructor
    · show (match parseCleanLog (ReqBody.logVal s) with
        | Except.error msg => (⟨400, st, false, msg⟩ : HandlerOutcome)
        | Except.ok log =>
          match llm log with
          | Except.error _ => ⟨500, st, true, s2l "Error processing log"⟩
          | Except.ok cleaned =>
            let r := st.createLog ⟨log, cleaned⟩
            ⟨200, r.2, true, cleaned⟩).status = 500
      simp [parseCleanLog, hne, hllm]
    · show (match parseCleanLog (ReqBody.logVal s) with
        | Except.error msg => (⟨400, st, false, msg⟩ : HandlerOutcome)
        | Except.ok log =>
          match llm log with
          | Except.error _ => ⟨500, st, true, s2l "Error processing log"⟩
          | Except.ok cleaned =>
            let r := st.createLog ⟨log, cleaned⟩
            ⟨200, r.2, true, cleaned⟩).store = st
      simp [parseCleanLog, hne, hllm]

/-- Witness for C9 at concrete inputs. -/
theorem claim_C9_w :
    (postCleanLog ReqBody.noLog (fun _ => Except.error []) MemStorage.init).status = 400
    ∧ (postCleanLog (ReqBody.logVal (s2l "x")) (fun _ => Except.error [])
        MemStorage.init).status = 500 :=
  ⟨(claim_C9_badreq.1 ReqBody.noLog (fun _ => Except.error []) MemStorage.init
      (Or.inl rfl)).1,
   (claim_C9_badreq.2 (s2l "x") (fun _ => Except.error []) MemStorage.init []
      (by decide) rfl).1⟩

/-- C10: starting from a fresh MemStorage, the n-th createLog call assigns id n
(ids 1, 2, 3, … strictly increasing from 1) and returns a Log carrying exactly the
inserted contents; getLog on an assigned id returns exactly that Log, and getLog
returns none for every id never assigned (0 or beyond the number of calls). -/
theorem claim_C10_storage (inserts : List InsertLog) :
    (runCreates MemStorage.init inserts).1.length = inserts.length
    ∧ (∀ (i : Nat) (hi : i < inserts.length),
        (runCreates MemStorage.init inserts).1.get? i =
          some ⟨i + 1, (inserts.get ⟨i, hi⟩).originalContent,
            (inserts.get ⟨i, hi⟩).cleanedContent⟩
        ∧ (runCreates MemStorage.init inserts).2.getLog (i + 1) =
          some ⟨i + 1, (inserts.get ⟨i, hi⟩).originalContent,
            (inserts.get ⟨i, hi⟩).cleanedContent⟩)
    ∧ (∀ j : Nat, j = 0 ∨ inserts.length < j →
        (runCreates MemStorage.init inserts).2.getLog j = none) := by
  have hrun := runCreates_spec inserts [] 1 (by simp)
  have hinit : MemStorage.init = ⟨[], 1⟩ := rfl
  refine ⟨?_, ?_, ?_⟩
  · rw [hinit, hrun]
    simp [logsFrom_length]
  · intro i hi
    constructor
    · rw [hinit, hrun]
      show ((logsFrom 1 inserts).map (fun p => p.2)).get? i = _
      rw [List.get?_map, logsFrom_get? inserts 1 i, List.get?_eq_get hi]
      simp [Nat.add_comm 1 i]
    · rw [hinit, hrun]
      show assocGet ([] ++ logsFrom 1 inserts) (i + 1) = _
      rw [List.nil_append, assocGet_logsFrom inserts 1 (i + 1), if_pos (by omega)]
      have he : i + 1 - 1 = i := by omega
      rw [he, List.get?_eq_get hi]
      rfl
  · intro j hj
    rw [hinit, hrun]
    show assocGet ([] ++ logsFrom 1 inserts) j = none
    rw [List.nil_append, assocGet_logsFrom inserts 1 j]
    rcases hj with rfl | hj
    · rw [if_neg (by omega)]
    · rw [if_pos (by omega)]
      have : inserts.get? (j - 1) = none := List.get?_eq_none.2 (by omega)
      rw [this]
      rfl

/-- Witness for C10 at a concrete call sequence. -/
theorem claim_C10_w :
    (runCreates MemStorage.init [⟨s2l "a", s2l "b"⟩, ⟨s2l "c", s2l "d"⟩]).1.get? 1 =
      some ⟨2, s2l "c", s2l "d"⟩
    ∧ (runCreates MemStorage.init [⟨s2l "a", s2l "b"⟩, ⟨s2l "c", s2l "d"⟩]).2.getLog 2 =
      some ⟨2, s2l "c", s2l "d"⟩
    ∧ (runCreates MemStorage.init [⟨s2l "a", s2l "b"⟩, ⟨s2l "c", s2l "d"⟩]).2.getLog 3 =
      none :=
  ⟨((claim_C10_storage [⟨s2l "a", s2l "b"⟩, ⟨s2l "c", s2l "d"⟩]).2.1 1 (by decide)).1,
   ((claim_C10_storage [⟨s2l "a", s2l "b"⟩, ⟨s2l "c", s2l "d"⟩]).2.1 1 (by decide)).2,
   (claim_C10_storage [⟨s2l "a", s2l "b"⟩, ⟨s2l "c", s2l "d"⟩]).2.2 3 (Or.inr (by decide))⟩
